import Mathlib

/-!
Verification of the ProxyScript aggregator (`scripts/aggregate.py`).

The script folds several line-oriented module sources into one merged
document: `parse_and_aggregate` parses sectioned text and accumulates
lines and MITM hostnames into shared state, `write_merged` renders the
state, `fetch_url_with_retries` models the retry loop, and `aggregate`
drives the whole run.  All definitions below are shallow embeddings of
those functions; strings are modelled as `List Char`.
-/

namespace ProxyScript

/-- Python whitespace (the set matched by `str.strip()` and `\s`). -/
def isSpace (c : Char) : Bool :=
  c.toNat == 32 || (9 ≤ c.toNat && c.toNat ≤ 13) || (28 ≤ c.toNat && c.toNat ≤ 31) ||
  c.toNat == 133 || c.toNat == 160 || c.toNat == 5760 ||
  (8192 ≤ c.toNat && c.toNat ≤ 8202) || c.toNat == 8232 || c.toNat == 8233 ||
  c.toNat == 8239 || c.toNat == 8287 || c.toNat == 12288

/-- Line boundaries recognised by Python `str.splitlines`. -/
def isLineBreak (c : Char) : Bool :=
  c.toNat == 10 || c.toNat == 13 || c.toNat == 11 || c.toNat == 12 ||
  (28 ≤ c.toNat && c.toNat ≤ 30) || c.toNat == 133 ||
  c.toNat == 8232 || c.toNat == 8233

/-- `str.lower`, character-wise (ASCII-faithful, as used by the script). -/
def lowerL (l : List Char) : List Char := l.map Char.toLower

/-- `str.upper`, character-wise. -/
def upperL (l : List Char) : List Char := l.map Char.toUpper

/-- Strip trailing characters satisfying `p` (Python `rstrip`). -/
def rstripP (p : Char → Bool) (l : List Char) : List Char :=
  (l.reverse.dropWhile p).reverse

/-- Python `str.strip()`. -/
def strip (l : List Char) : List Char := rstripP isSpace (l.dropWhile isSpace)

/-- `normalize_line`: `line.rstrip('\r\n')`. -/
def normalizeLine (l : List Char) : List Char :=
  rstripP (fun c => c == '\r' || c == '\n') l

/-- `line.lstrip('﻿')`: drop leading byte-order marks. -/
def dropBom (l : List Char) : List Char := l.dropWhile (fun c => c == '﻿')

/-- The whole normalisation applied to each raw physical line:
`normalize_line(raw).lstrip('﻿')`. -/
def lineOf (raw : List Char) : List Char := dropBom (normalizeLine raw)

/-- Worker for `pySplitlines`, accumulating the current line reversed. -/
def pySplitlinesGo : List Char → List Char → List (List Char)
  | [], acc => if acc.isEmpty then [] else [acc.reverse]
  | '\r' :: '\n' :: rest, acc => acc.reverse :: pySplitlinesGo rest []
  | c :: rest, acc =>
    if isLineBreak c then acc.reverse :: pySplitlinesGo rest []
    else pySplitlinesGo rest (c :: acc)

/-- Python `str.splitlines()`. -/
def pySplitlines (cs : List Char) : List (List Char) := pySplitlinesGo cs []

/-- `stripped.startswith(("#", "//", ";"))`. -/
def startsComment : List Char → Bool
  | '#' :: _ => true
  | ';' :: _ => true
  | '/' :: '/' :: _ => true
  | _ => false

/-- `SECTION_HEADER_RE = ^\s*\[(?P<name>[^\]]+)\]\s*$`: returns the raw
(unstripped) `name` group on a match. -/
def sectionHeaderName (line : List Char) : Option (List Char) :=
  match line.dropWhile isSpace with
  | [] => none
  | c :: rest =>
    if c = '[' then
      let name := rest.takeWhile (fun x => x != ']')
      match rest.dropWhile (fun x => x != ']') with
      | [] => none
      | d :: tail =>
        if d = ']' then
          if !name.isEmpty && tail.all isSpace then some name else none
        else none
    else none

/-- Case-insensitive literal match; returns the remainder of the input. -/
def matchCI : List Char → List Char → Option (List Char)
  | [], rest => some rest
  | _ :: _, [] => none
  | p :: ps, c :: cs => if c.toLower == p then matchCI ps cs else none

/-- `MITM_HOSTNAME_RE = ^\s*hostname\s*=\s*(?P<rest>.+?)\s*$` (IGNORECASE).
Returns the captured `rest` group.  The regex captures everything after the
first `=` with surrounding whitespace trimmed, and needs at least one
character after the `=`; when that suffix is pure whitespace the capture is
a single space, whose host candidates are empty exactly as for the stripped
(empty) capture modelled here. -/
def mitmHostnameRest (line : List Char) : Option (List Char) :=
  match matchCI ("hostname".toList) (line.dropWhile isSpace) with
  | none => none
  | some r =>
    match r.dropWhile isSpace with
    | [] => none
    | d :: s =>
      if d = '=' then
        if s.isEmpty then none else some (strip s)
      else none

/-- `rest.replace('%APPEND%', '')`: left-to-right removal of the token. -/
def removeAppend : List Char → List Char
  | '%' :: 'A' :: 'P' :: 'P' :: 'E' :: 'N' :: 'D' :: '%' :: rest => removeAppend rest
  | c :: rest => c :: removeAppend rest
  | [] => []

/-- Python `str.split(',')`. -/
def splitComma : List Char → List (List Char)
  | [] => [[]]
  | ',' :: rest => [] :: splitComma rest
  | c :: rest =>
    match splitComma rest with
    | [] => [[c]]
    | p :: ps => (c :: p) :: ps

/-- `[h.strip() for h in rest.replace('%APPEND%','').strip().split(',')]`. -/
def hostCandidates (g : List Char) : List (List Char) :=
  (splitComma (strip (removeAppend g))).map strip

/-- Does `hay` contain `needle` as a contiguous substring (Python `in`)? -/
def isPrefixL : List Char → List Char → Bool
  | [], _ => true
  | _ :: _, [] => false
  | a :: l1, b :: l2 => a == b && isPrefixL l1 l2

/-- Python substring containment `needle in hay`. -/
def hasSub (needle : List Char) : List Char → Bool
  | [] => isPrefixL needle []
  | c :: t => isPrefixL needle (c :: t) || hasSub needle t

/-- `if drop_tokens: if any(tok.lower() in lower_line for tok in drop_tokens)`. -/
def dropHit (dt : List (List Char)) (line : List Char) : Bool :=
  !dt.isEmpty && dt.any (fun tok => hasSub (lowerL tok) (lowerL line))

/-- The shared accumulators of the aggregation pass: `section_order`,
`non_mitm_lines` (as an insertion-ordered association list, mirroring the
dict), `non_mitm_seen`, `mitm_hosts` and `mitm_seen` (sets as lists). -/
structure MergeState where
  sectionOrder : List (List Char)
  sectionLines : List (List Char × List (List Char))
  nonMitmSeen : List (List Char)
  mitmHosts : List (List Char)
  mitmSeen : List (List Char)
  deriving DecidableEq, Repr

/-- The empty starting state built at the top of `aggregate`. -/
def initState : MergeState := ⟨[], [], [], [], []⟩

/-- Dict lookup `non_mitm_lines.get(k)`. -/
def lookupSec : List (List Char × List (List Char)) → List Char → Option (List (List Char))
  | [], _ => none
  | (k, v) :: rest, key => if k = key then some v else lookupSec rest key

/-- `non_mitm_lines[k].append(x)` (appends at the first matching key;
no effect when the key is absent, a case the parser never reaches). -/
def appendSec : List (List Char × List (List Char)) → List Char → List Char →
    List (List Char × List (List Char))
  | [], _, _ => []
  | (k, v) :: rest, key, x =>
    if k = key then (k, v ++ [x]) :: rest else (k, v) :: appendSec rest key x

/-- `if host not in mitm_seen: mitm_seen.add(host); mitm_hosts.append(host)`. -/
def addHost (st : MergeState) (h : List Char) : MergeState :=
  if h ∈ st.mitmSeen then st
  else { st with mitmSeen := st.mitmSeen ++ [h], mitmHosts := st.mitmHosts ++ [h] }

/-- The `for host in ...` loop of the MITM branch, skipping empty pieces. -/
def addHosts (st : MergeState) (hs : List (List Char)) : MergeState :=
  hs.foldl (fun s h => if h.isEmpty then s else addHost s h) st

/-- One iteration of the `for raw in content.splitlines()` loop of
`parse_and_aggregate`.  The second component of the pair carries
`current_section`. -/
def stepLine (dt : List (List Char)) (acc : MergeState × Option (List Char))
    (raw : List Char) : MergeState × Option (List Char) :=
  let line := lineOf raw
  let stripped := strip line
  if stripped.isEmpty || startsComment stripped then acc
  else
    match sectionHeaderName line with
    | some g =>
      let name := strip g
      if upperL name = "MITM".toList then (acc.1, some name)
      else
        match lookupSec acc.1.sectionLines name with
        | some _ => (acc.1, some name)
        | none =>
          ({ acc.1 with sectionOrder := acc.1.sectionOrder ++ [name],
                        sectionLines := acc.1.sectionLines ++ [(name, [])] },
           some name)
    | none =>
      match acc.2 with
      | none => acc
      | some sec =>
        if upperL sec = "MITM".toList then
          match mitmHostnameRest line with
          | none => (acc.1, some sec)
          | some g => (addHosts acc.1 (hostCandidates g), some sec)
        else if dropHit dt line then (acc.1, some sec)
        else if line ∈ acc.1.nonMitmSeen then (acc.1, some sec)
        else ({ acc.1 with nonMitmSeen := acc.1.nonMitmSeen ++ [line],
                           sectionLines := appendSec acc.1.sectionLines sec line },
              some sec)

/-- `parse_and_aggregate(content, drop_tokens, ...)`: fold one source's text
into the shared state; `current_section` starts at `None` for every call. -/
def parseAndAggregate (content : List Char) (dt : List (List Char))
    (st : MergeState) : MergeState :=
  ((pySplitlines content).foldl (stepLine dt) (st, none)).1

/-- Header directive lines contributed by `name` (`if name: append`). -/
def nameLines : Option (List Char) → List (List Char)
  | none => []
  | some l => if l.isEmpty then [] else ["#!name=".toList ++ l]

/-- Header directive lines contributed by `desc`. -/
def descLines : Option (List Char) → List (List Char)
  | none => []
  | some l => if l.isEmpty then [] else ["#!desc=".toList ++ l]

/-- The header block of `write_merged` including its trailing blank line. -/
def headerPart (n d : Option (List Char)) : List (List Char) :=
  let h := nameLines n ++ descLines d
  if h.isEmpty then [] else h ++ [[]]

/-- The rendered `[sec]` line. -/
def headerLine (sec : List Char) : List Char := '[' :: (sec ++ [']'])

/-- One section's output block: skipped when absent or empty
(`if not lines: continue`). -/
def sectionBlock (m : List (List Char × List (List Char))) (sec : List Char) :
    List (List Char) :=
  match lookupSec m sec with
  | none => []
  | some ls => if ls.isEmpty then [] else headerLine sec :: ls ++ [[]]

/-- The `for sec in section_order` emission loop of `write_merged`. -/
def sectionsOut (names : List (List Char)) (m : List (List Char × List (List Char))) :
    List (List Char) :=
  (names.map (sectionBlock m)).flatten

/-- `', '.join(mitm_hosts)`. -/
def joinCommaSpace : List (List Char) → List Char
  | [] => []
  | [h] => h
  | h :: t => h ++ ',' :: ' ' :: joinCommaSpace t

/-- The final MITM block of `write_merged`. -/
def mitmOut (hosts : List (List Char)) : List (List Char) :=
  if hosts.isEmpty then []
  else ["[MITM]".toList, "hostname = %APPEND% ".toList ++ joinCommaSpace hosts, []]

/-- `while out_lines and out_lines[-1] == '': out_lines.pop()`. -/
def rstripBlank (out : List (List Char)) : List (List Char) :=
  (out.reverse.dropWhile (fun l => l.isEmpty)).reverse

/-- The full line list assembled and trimmed by `write_merged`. -/
def writeMergedOut (order : List (List Char))
    (m : List (List Char × List (List Char))) (hosts : List (List Char))
    (n d : Option (List Char)) : List (List Char) :=
  rstripBlank (headerPart n d ++ sectionsOut order m ++ mitmOut hosts)

/-- `'\n'.join(out_lines)`. -/
def joinNl : List (List Char) → List Char
  | [] => []
  | [l] => l
  | l :: t => l ++ '\n' :: joinNl t

/-- The text written to disk: `'\n'.join(out_lines) + '\n'`. -/
def renderText (st : MergeState) (n d : Option (List Char)) : List Char :=
  joinNl (writeMergedOut st.sectionOrder st.sectionLines st.mitmHosts n d) ++ ['\n']

/-- `f"Failed after {retries} retries"`. -/
def failMsg (retries : Nat) : List Char :=
  ("Failed after " ++ toString retries ++ " retries").toList

/-- The retry loop of `fetch_url_with_retries`.  `f` gives each attempt's
outcome, `lastError` threads the `last_error` variable (which the source
never assigns after its initialisation), and `fuel` bounds the loop, which
terminates after at most `max 0 retries + 1` attempts. -/
def fetchGo (f : Nat → Option (List Char)) (retries : Nat) :
    Nat → Nat → Option (List Char) → Option (List Char) × Option (List Char)
  | 0, _, lastError => (none, some (lastError.getD (failMsg retries)))
  | fuel + 1, attempt, lastError =>
    if attempt ≤ max 0 retries then
      match f attempt with
      | some t => (some t, none)
      | none =>
        if attempt + 1 > retries then (none, some (lastError.getD (failMsg retries)))
        else fetchGo f retries fuel (attempt + 1) lastError
    else (none, some (lastError.getD (failMsg retries)))

/-- `fetch_url_with_retries`: returns `(text, error)`. -/
def fetchUrlWithRetries (f : Nat → Option (List Char)) (retries : Nat) :
    Option (List Char) × Option (List Char) :=
  fetchGo f retries (retries + 2) 0 none

/-- One manifest rule together with its (already performed) fetch outcome:
`text` is `None` exactly when the fetch failed, `err` is the error message
returned alongside. -/
structure FetchedRule where
  url : List Char
  text : Option (List Char)
  err : Option (List Char)
  drop : List (List Char)
  deriving DecidableEq, Repr

/-- Accumulator of the main loop of `aggregate`: merge state, the
`failures` list of `(index, url, message)`, and the `fetched` counter. -/
def aggStep (acc : MergeState × List (Nat × List Char × List Char) × Nat)
    (ir : Nat × FetchedRule) :
    MergeState × List (Nat × List Char × List Char) × Nat :=
  match ir.2.text with
  | none =>
    (acc.1, acc.2.1 ++ [(ir.1, ir.2.url, ir.2.err.getD ("unknown error".toList))],
     acc.2.2)
  | some t => (parseAndAggregate t ir.2.drop acc.1, acc.2.1, acc.2.2 + 1)

/-- The `for idx, rule in enumerate(rules, start=1)` loop of `aggregate`. -/
def runAggregate (rules : List FetchedRule) :
    MergeState × List (Nat × List Char × List Char) × Nat :=
  (rules.enumFrom 1).foldl aggStep (initState, [], 0)

/-- Python truthiness of an optional string. -/
def truthy : Option (List Char) → Bool
  | none => false
  | some l => !l.isEmpty

/-- Python `a or b` on optional strings. -/
def pyOr (a b : Option (List Char)) : Option (List Char) :=
  if truthy a then a else b

/-- The name/desc resolution of `aggregate`:
`if not name or not desc: name = name or yaml_name or 'Aggregated Module'; ...`. -/
def resolveMeta (n d yn yd : Option (List Char)) :
    Option (List Char) × Option (List Char) :=
  if !truthy n || !truthy d then
    (pyOr (pyOr n yn) (some ("Aggregated Module".toList)),
     pyOr (pyOr d yd) (some ("Auto-generated by aggregate.py".toList)))
  else (n, d)

/-- The render performed at the end of `aggregate`, with the meta values it
resolves from CLI and manifest inputs. -/
def aggRender (n d yn yd : Option (List Char)) (order : List (List Char))
    (m : List (List Char × List (List Char))) (hosts : List (List Char)) :
    List (List Char) :=
  writeMergedOut order m hosts (resolveMeta n d yn yd).1 (resolveMeta n d yn yd).2

end ProxyScript

/-! ### Generic list helpers -/

namespace ProxyScript

theorem dropWhile_append_last {α : Type} (p : α → Bool) (xs : List α) (a : α)
    (h : p a = false) :
    (xs ++ [a]).dropWhile p = xs.dropWhile p ++ [a] := by
  induction xs with
  | nil => simp [List.dropWhile, h]
  | cons x xs ih =>
    by_cases hx : p x = true
    · simpa [List.dropWhile_cons_of_pos hx] using ih
    · rw [List.cons_append, List.dropWhile_cons_of_neg hx,
        List.dropWhile_cons_of_neg hx]
      simp

theorem dropWhile_eq_self_of {α : Type} (p : α → Bool) (l : List α)
    (h : ∀ c ∈ l, p c = false) : l.dropWhile p = l := by
  cases l with
  | nil => rfl
  | cons c t => exact List.dropWhile_cons_of_neg (by simp [h c (by simp)])

theorem dropWhile_head_false {α : Type} {p : α → Bool} {l t : List α} {c : α}
    (h : l.dropWhile p = c :: t) : p c = false := by
  induction l with
  | nil => simp [List.dropWhile] at h
  | cons x xs ih =>
    by_cases hx : p x = true
    · rw [List.dropWhile_cons_of_pos hx] at h; exact ih h
    · rw [List.dropWhile_cons_of_neg hx] at h
      cases h; simpa using hx

theorem mem_of_mem_dropWhile {α : Type} {p : α → Bool} {l : List α} {a : α}
    (h : a ∈ l.dropWhile p) : a ∈ l :=
  (List.dropWhile_sublist p).subset h

theorem mem_of_mem_takeWhile {α : Type} {p : α → Bool} {l : List α} {a : α}
    (h : a ∈ l.takeWhile p) : a ∈ l :=
  (List.takeWhile_sublist p).subset h

theorem takeWhile_append_stop {α : Type} (p : α → Bool) (xs ys : List α) (a : α)
    (hxs : ∀ c ∈ xs, p c = true) (ha : p a = false) :
    (xs ++ a :: ys).takeWhile p = xs ∧ (xs ++ a :: ys).dropWhile p = a :: ys := by
  induction xs with
  | nil =>
    constructor
    · simp [List.takeWhile, ha]
    · exact List.dropWhile_cons_of_neg (by simp [ha])
  | cons x t ih =>
    have hx : p x = true := hxs x (by simp)
    have ih' := ih (fun c hc => hxs c (by simp [hc]))
    constructor
    · rw [List.cons_append, List.takeWhile_cons_of_pos hx, ih'.1]
    · rw [List.cons_append, List.dropWhile_cons_of_pos hx, ih'.2]

theorem flatten_sublist_of_sublist {α : Type} {l₁ l₂ : List (List α)}
    (h : l₁.Sublist l₂) : l₁.flatten.Sublist l₂.flatten := by
  induction h with
  | slnil => simp
  | cons a _ ih =>
    rw [List.flatten_cons]
    exact ih.trans (List.sublist_append_right _ _)
  | cons₂ a _ ih => simpa using List.Sublist.append (List.Sublist.refl a) ih

theorem nodup_of_mem_flatten_nodup {α : Type} {l : List (List α)}
    (h : l.flatten.Nodup) {x : List α} (hx : x ∈ l) : x.Nodup := by
  induction l with
  | nil => simp at hx
  | cons a t ih =>
    rw [List.flatten_cons, List.nodup_append] at h
    rcases List.mem_cons.mp hx with rfl | hx'
    · exact h.1
    · exact ih h.2.1 hx'

/-! ### rstrip / strip lemmas -/

theorem rstripP_reverse (p : Char → Bool) (l : List Char) :
    (rstripP p l).reverse = l.reverse.dropWhile p := by
  unfold rstripP; simp

theorem rstripP_cons (p : Char → Bool) (c : Char) (l : List Char)
    (h : p c = false) : rstripP p (c :: l) = c :: rstripP p l := by
  unfold rstripP
  rw [List.reverse_cons, dropWhile_append_last p _ c h]
  simp

theorem rstripP_eq_self_of (p : Char → Bool) (l : List Char)
    (h : ∀ c ∈ l, p c = false) : rstripP p l = l := by
  unfold rstripP
  rw [dropWhile_eq_self_of p _ (fun c hc => h c (List.mem_reverse.mp hc))]
  simp

theorem mem_of_mem_rstripP {p : Char → Bool} {l : List Char} {c : Char}
    (h : c ∈ rstripP p l) : c ∈ l := by
  unfold rstripP at h
  rw [List.mem_reverse] at h
  exact List.mem_reverse.mp (mem_of_mem_dropWhile h)

/-- `l` splits as its right-strip plus a trailing run satisfying `p`. -/
theorem rstripP_split (p : Char → Bool) (l : List Char) :
    l = rstripP p l ++ (l.reverse.takeWhile p).reverse := by
  conv_lhs => rw [← List.reverse_reverse l,
    ← List.takeWhile_append_dropWhile p l.reverse]
  rw [List.reverse_append]
  rfl

theorem strip_cons (c : Char) (l : List Char) (h : isSpace c = false) :
    strip (c :: l) = c :: rstripP isSpace l := by
  unfold strip
  rw [List.dropWhile_cons_of_neg (by simp [h]), rstripP_cons _ _ _ h]

theorem mem_of_mem_strip {l : List Char} {c : Char} (h : c ∈ strip l) : c ∈ l := by
  unfold strip at h
  exact mem_of_mem_dropWhile (mem_of_mem_rstripP h)

theorem strip_eq_self_of (l : List Char) (h : ∀ c ∈ l, isSpace c = false) :
    strip l = l := by
  unfold strip
  rw [dropWhile_eq_self_of _ _ h]
  exact rstripP_eq_self_of _ _ h

theorem strip_nil : strip [] = [] := rfl

theorem strip_idem (l : List Char) : strip (strip l) = strip l := by
  cases h : strip l with
  | nil => exact strip_nil
  | cons c t =>
    have hsplit := rstripP_split isSpace (l.dropWhile isSpace)
    rw [show rstripP isSpace (l.dropWhile isSpace) = strip l from rfl, h] at hsplit
    have hc : isSpace c = false := by
      have : l.dropWhile isSpace
          = c :: (t ++ ((l.dropWhile isSpace).reverse.takeWhile isSpace).reverse) := by
        simpa using hsplit
      exact dropWhile_head_false this
    have hrev : (strip l).reverse
        = (l.dropWhile isSpace).reverse.dropWhile isSpace := by
      unfold strip
      exact rstripP_reverse _ _
    have hlast : List.dropWhile isSpace (c :: t).reverse = (c :: t).reverse := by
      cases hr : (c :: t).reverse with
      | nil => simp at hr
      | cons d s =>
        have hd : isSpace d = false := by
          apply dropWhile_head_false (p := isSpace)
            (l := (l.dropWhile isSpace).reverse)
          rw [← hrev, h, hr]
        rw [List.dropWhile_cons_of_neg (by simp [hd])]
    unfold strip
    rw [List.dropWhile_cons_of_neg (by simp [hc])]
    unfold rstripP
    rw [hlast, List.reverse_reverse]

theorem normalizeLine_eq_self (l : List Char)
    (h : ∀ c ∈ l, isLineBreak c = false) : normalizeLine l = l := by
  unfold normalizeLine
  apply rstripP_eq_self_of
  intro c hc
  have hl := h c hc
  by_cases hr : c = '\r'
  · subst hr; exact absurd hl (by decide)
  · by_cases hn : c = '\n'
    · subst hn; exact absurd hl (by decide)
    · simp only [Bool.or_eq_false_iff, beq_eq_false_iff_ne, ne_eq]
      exact ⟨hr, hn⟩

theorem dropBom_cons (c : Char) (l : List Char) (h : (c == '﻿') = false) :
    dropBom (c :: l) = c :: l := by
  unfold dropBom
  exact List.dropWhile_cons_of_neg (by simp_all)

theorem dropBom_idem (l : List Char) : dropBom (dropBom l) = dropBom l := by
  unfold dropBom
  cases h : l.dropWhile (fun c => c == '﻿') with
  | nil => rfl
  | cons c t => exact List.dropWhile_cons_of_neg (by simp [dropWhile_head_false h])

theorem mem_of_mem_dropBom {l : List Char} {c : Char} (h : c ∈ dropBom l) : c ∈ l :=
  mem_of_mem_dropWhile h

theorem mem_of_mem_lineOf {raw : List Char} {c : Char} (h : c ∈ lineOf raw) :
    c ∈ raw := by
  unfold lineOf normalizeLine at h
  exact mem_of_mem_rstripP (mem_of_mem_dropBom h)

/-- A linebreak-free line without a leading BOM is untouched by the
per-line normalisation. -/
theorem lineOf_eq_self (l : List Char) (hb : ∀ c ∈ l, isLineBreak c = false)
    (hm : dropBom l = l) : lineOf l = l := by
  unfold lineOf
  rw [normalizeLine_eq_self l hb, hm]

theorem dropBom_lineOf (raw : List Char) : dropBom (lineOf raw) = lineOf raw := by
  unfold lineOf
  exact dropBom_idem _

theorem lineOf_nil : lineOf [] = [] := rfl

end ProxyScript

/-! ### splitlines and join lemmas -/

namespace ProxyScript

theorem pySplitlinesGo_linebreak_free : ∀ (cs acc : List Char),
    (∀ c ∈ acc, isLineBreak c = false) →
    ∀ piece ∈ pySplitlinesGo cs acc, ∀ c ∈ piece, isLineBreak c = false := by
  intro cs acc
  induction cs, acc using pySplitlinesGo.induct with
  | case1 acc he =>
    intro hacc piece hp c hc
    rw [pySplitlinesGo.eq_1, if_pos he] at hp
    simp at hp
  | case2 acc he =>
    intro hacc piece hp c hc
    rw [pySplitlinesGo.eq_1, if_neg he] at hp
    rw [List.mem_singleton] at hp
    subst hp
    exact hacc c (List.mem_reverse.mp hc)
  | case3 rest acc ih =>
    intro hacc piece hp c hc
    rw [pySplitlinesGo.eq_2] at hp
    rcases List.mem_cons.mp hp with rfl | hp'
    · exact hacc c (List.mem_reverse.mp hc)
    · exact ih (by simp) piece hp' c hc
  | case4 c0 rest acc hne hbr ih =>
    intro hacc piece hp c hc
    rw [pySplitlinesGo.eq_3 _ _ _ hne, if_pos hbr] at hp
    rcases List.mem_cons.mp hp with rfl | hp'
    · exact hacc c (List.mem_reverse.mp hc)
    · exact ih (by simp) piece hp' c hc
  | case5 c0 rest acc hne hbr ih =>
    intro hacc piece hp c hc
    rw [pySplitlinesGo.eq_3 _ _ _ hne, if_neg hbr] at hp
    refine ih ?_ piece hp c hc
    intro x hx
    rcases List.mem_cons.mp hx with rfl | hx'
    · simpa using hbr
    · exact hacc x hx'

/-- Every piece produced by `pySplitlines` is free of line-break characters. -/
theorem pySplitlines_linebreak_free (cs : List Char) :
    ∀ piece ∈ pySplitlines cs, ∀ c ∈ piece, isLineBreak c = false :=
  pySplitlinesGo_linebreak_free cs [] (by simp)

end ProxyScript

namespace ProxyScript

theorem pySplitlinesGo_append_nl (l : List Char) :
    ∀ (suffix acc : List Char), (∀ c ∈ l, isLineBreak c = false) →
    pySplitlinesGo (l ++ '\n' :: suffix) acc
      = (acc.reverse ++ l) :: pySplitlinesGo suffix [] := by
  induction l with
  | nil =>
    intro suffix acc _
    rw [List.nil_append,
      pySplitlinesGo.eq_3 _ _ _ (by intro r h1 _; exact absurd h1 (by decide)),
      if_pos (by decide)]
    simp
  | cons c0 t ih =>
    intro suffix acc hl
    have hc0 : isLineBreak c0 = false := hl c0 (by simp)
    have hne : ∀ (r : List Char), c0 = '\r' → t ++ '\n' :: suffix = '\n' :: r → False := by
      intro r h1 _
      rw [h1] at hc0
      exact absurd hc0 (by decide)
    rw [List.cons_append, pySplitlinesGo.eq_3 _ _ _ hne, if_neg (by simp [hc0])]
    rw [ih suffix (c0 :: acc) (fun c hc => hl c (by simp [hc]))]
    simp

/-- Splitting the rendered text (newline-joined lines plus a final newline)
recovers exactly the original lines. -/
theorem pySplitlines_joinNl (out : List (List Char)) (hne : out ≠ [])
    (hfree : ∀ l ∈ out, ∀ c ∈ l, isLineBreak c = false) :
    pySplitlines (joinNl out ++ ['\n']) = out := by
  induction out with
  | nil => exact absurd rfl hne
  | cons l t ih =>
    cases t with
    | nil =>
      unfold pySplitlines
      rw [show joinNl [l] = l from rfl,
        show l ++ ['\n'] = l ++ '\n' :: ([] : List Char) from rfl,
        pySplitlinesGo_append_nl l [] [] (hfree l (by simp))]
      rfl
    | cons l2 t2 =>
      unfold pySplitlines
      rw [show joinNl (l :: l2 :: t2) = l ++ '\n' :: joinNl (l2 :: t2) from rfl,
        show (l ++ '\n' :: joinNl (l2 :: t2)) ++ ['\n']
          = l ++ '\n' :: (joinNl (l2 :: t2) ++ ['\n']) by simp,
        pySplitlinesGo_append_nl _ _ [] (hfree l (by simp))]
      simp only [List.reverse_nil, List.nil_append]
      congr 1
      have := ih (by simp) (fun x hx => hfree x (by simp [hx]))
      unfold pySplitlines at this
      exact this

/-! ### Association-list (dict) lemmas -/

theorem lookupSec_cons (a : List Char) (b : List (List Char))
    (t : List (List Char × List (List Char))) (k : List Char) :
    lookupSec ((a, b) :: t) k = if a = k then some b else lookupSec t k := rfl

theorem appendSec_cons (a : List Char) (b : List (List Char))
    (t : List (List Char × List (List Char))) (k x : List Char) :
    appendSec ((a, b) :: t) k x
      = if a = k then (a, b ++ [x]) :: t else (a, b) :: appendSec t k x := rfl

theorem lookupSec_eq_none_iff (m : List (List Char × List (List Char)))
    (k : List Char) : lookupSec m k = none ↔ k ∉ m.map Prod.fst := by
  induction m with
  | nil => simp [lookupSec]
  | cons p t ih =>
    unfold lookupSec
    by_cases h : p.1 = k
    · simp [h]
    · simp only [List.map_cons, List.mem_cons]
      rw [if_neg (by exact h)]
      rw [ih]
      constructor
      · intro hk hc
        rcases hc with hc | hc
        · exact h hc.symm
        · exact hk hc
      · intro hk
        exact fun hc => hk (Or.inr hc)

theorem lookupSec_self (m : List (List Char × List (List Char)))
    (hnd : (m.map Prod.fst).Nodup) (p : List Char × List (List Char))
    (hp : p ∈ m) : lookupSec m p.1 = some p.2 := by
  induction m with
  | nil => simp at hp
  | cons q t ih =>
    rw [List.map_cons, List.nodup_cons] at hnd
    rcases List.mem_cons.mp hp with rfl | hp'
    · unfold lookupSec
      rw [if_pos rfl]
    · unfold lookupSec
      have hqp : q.1 ≠ p.1 := by
        intro he
        exact hnd.1 (he ▸ List.mem_map_of_mem Prod.fst hp')
      rw [if_neg hqp]
      exact ih hnd.2 hp'

theorem appendSec_map_fst (m : List (List Char × List (List Char)))
    (k x : List Char) : (appendSec m k x).map Prod.fst = m.map Prod.fst := by
  induction m with
  | nil => rfl
  | cons p t ih =>
    unfold appendSec
    by_cases h : p.1 = k
    · simp [h]
    · simp only [List.map_cons]
      rw [if_neg (by exact h)]
      simp [ih]

theorem appendSec_of_none (m : List (List Char × List (List Char)))
    (k x : List Char) (h : lookupSec m k = none) : appendSec m k x = m := by
  induction m with
  | nil => rfl
  | cons p t ih =>
    unfold lookupSec at h
    unfold appendSec
    by_cases hk : p.1 = k
    · rw [if_pos hk] at h; cases h
    · rw [if_neg hk] at h
      rw [if_neg hk, ih h]

theorem mem_appendSec {m : List (List Char × List (List Char))}
    {k x : List Char} {q : List Char × List (List Char)}
    (h : q ∈ appendSec m k x) :
    q ∈ m ∨ ∃ v, (k, v) ∈ m ∧ q = (k, v ++ [x]) := by
  induction m with
  | nil => simp [appendSec] at h
  | cons p t ih =>
    unfold appendSec at h
    by_cases hk : p.1 = k
    · rw [if_pos hk] at h
      rcases List.mem_cons.mp h with rfl | h'
      · right
        exact ⟨p.2, by simp [← hk], by rw [hk]⟩
      · exact Or.inl (by simp [h'])
    · rw [if_neg hk] at h
      rcases List.mem_cons.mp h with rfl | h'
      · exact Or.inl (by simp)
      · rcases ih h' with h'' | ⟨v, hv, he⟩
        · exact Or.inl (by simp [h''])
        · exact Or.inr ⟨v, by simp [hv], he⟩

theorem appendSec_append_key (m₁ m₂ : List (List Char × List (List Char)))
    (k x : List Char) (v : List (List Char)) (h : lookupSec m₁ k = none) :
    appendSec (m₁ ++ (k, v) :: m₂) k x = m₁ ++ (k, v ++ [x]) :: m₂ := by
  induction m₁ with
  | nil =>
    rw [List.nil_append, List.nil_append]
    unfold appendSec
    rw [if_pos rfl]
  | cons p t ih =>
    obtain ⟨a, b⟩ := p
    unfold lookupSec at h
    by_cases hk : a = k
    · rw [if_pos hk] at h; cases h
    · rw [if_neg hk] at h
      rw [List.cons_append, List.cons_append]
      unfold appendSec
      rw [if_neg hk, ih h]

theorem lookupSec_append_none (m₁ m₂ : List (List Char × List (List Char)))
    (k : List Char) (h : lookupSec m₁ k = none) :
    lookupSec (m₁ ++ m₂) k = lookupSec m₂ k := by
  induction m₁ with
  | nil => rfl
  | cons p t ih =>
    obtain ⟨a, b⟩ := p
    unfold lookupSec at h
    by_cases hk : a = k
    · rw [if_pos hk] at h; cases h
    · rw [if_neg hk] at h
      rw [List.cons_append, lookupSec_cons, if_neg hk]
      exact ih h

theorem lookupSec_append_some (m₁ m₂ : List (List Char × List (List Char)))
    (k : List Char) (v : List (List Char)) (h : lookupSec m₁ k = some v) :
    lookupSec (m₁ ++ m₂) k = some v := by
  induction m₁ with
  | nil => cases h
  | cons p t ih =>
    obtain ⟨a, b⟩ := p
    rw [lookupSec_cons] at h
    rw [List.cons_append, lookupSec_cons]
    by_cases hk : a = k
    · rw [if_pos hk] at h
      rw [if_pos hk]
      exact h
    · rw [if_neg hk] at h
      rw [if_neg hk]
      exact ih h

theorem mem_flatten_snd_appendSec {m : List (List Char × List (List Char))}
    {k x : List Char} {y : List Char}
    (h : y ∈ (((appendSec m k x).map Prod.snd).flatten)) :
    y ∈ ((m.map Prod.snd).flatten) ∨ y = x := by
  induction m with
  | nil => simp [appendSec] at h
  | cons p t ih =>
    obtain ⟨a, b⟩ := p
    unfold appendSec at h
    by_cases hk : a = k
    · rw [if_pos hk] at h
      simp only [List.map_cons, List.flatten_cons, List.mem_append,
        List.mem_singleton] at h ⊢
      rcases h with (h' | h') | h'
      · exact Or.inl (Or.inl h')
      · exact Or.inr h'
      · exact Or.inl (Or.inr h')
    · rw [if_neg hk] at h
      simp only [List.map_cons, List.flatten_cons, List.mem_append] at h ⊢
      rcases h with h' | h'
      · exact Or.inl (Or.inl h')
      · rcases ih h' with h'' | h''
        · exact Or.inl (Or.inr h'')
        · exact Or.inr h''

theorem flatten_snd_appendSec (m : List (List Char × List (List Char)))
    (k x : List Char) (hx : x ∉ ((m.map Prod.snd).flatten))
    (hnd : ((m.map Prod.snd).flatten).Nodup) :
    (((appendSec m k x).map Prod.snd).flatten).Nodup := by
  induction m with
  | nil => simp [appendSec]
  | cons p t ih =>
    obtain ⟨a, b⟩ := p
    simp only [List.map_cons, List.flatten_cons, List.mem_append] at hx
    rw [List.map_cons, List.flatten_cons, List.nodup_append] at hnd
    unfold appendSec
    by_cases hk : a = k
    · rw [if_pos hk]
      simp only [List.map_cons, List.flatten_cons]
      rw [List.nodup_append]
      refine ⟨?_, hnd.2.1, ?_⟩
      · rw [List.nodup_append]
        refine ⟨hnd.1, by simp, ?_⟩
        intro y hy hy'
        rw [List.mem_singleton] at hy'
        subst hy'
        exact hx (Or.inl hy)
      · intro y hy
        rcases List.mem_append.mp hy with hy' | hy'
        · exact hnd.2.2 hy'
        · rw [List.mem_singleton] at hy'
          subst hy'
          exact fun hc => hx (Or.inr hc)
    · rw [if_neg hk]
      simp only [List.map_cons, List.flatten_cons]
      rw [List.nodup_append]
      refine ⟨hnd.1, ih (fun hc => hx (Or.inr hc)) hnd.2.1, ?_⟩
      intro y hy hy'
      rcases mem_flatten_snd_appendSec hy' with h1 | h1
      · exact hnd.2.2 hy h1
      · subst h1
        exact hx (Or.inl hy)

end ProxyScript

namespace ProxyScript

/-! ### rstripBlank lemmas -/

theorem isEmpty_false_of_ne {α : Type} (a : List α) (ha : a ≠ []) :
    a.isEmpty = false := by
  cases a with
  | nil => exact absurd rfl ha
  | cons _ _ => rfl

theorem rstripBlank_append_ne (Y : List (List Char)) (a : List Char)
    (ha : a ≠ []) : rstripBlank (Y ++ [a]) = Y ++ [a] := by
  unfold rstripBlank
  rw [show (Y ++ [a]).reverse = a :: Y.reverse by simp,
    List.dropWhile_cons_of_neg (by simp [isEmpty_false_of_ne a ha])]
  simp

theorem rstripBlank_append_nil (Y : List (List Char)) :
    rstripBlank (Y ++ [[]]) = rstripBlank Y := by
  unfold rstripBlank
  rw [show (Y ++ [([] : List Char)]).reverse = ([] : List Char) :: Y.reverse by simp,
    List.dropWhile_cons_of_pos (by rfl)]

theorem rstripBlank_cons_ne (a : List Char) (t : List (List Char))
    (ha : a ≠ []) : rstripBlank (a :: t) = a :: rstripBlank t := by
  unfold rstripBlank
  rw [List.reverse_cons, dropWhile_append_last _ _ _ (isEmpty_false_of_ne a ha)]
  simp

theorem mem_rstripBlank {l : List (List Char)} {x : List Char}
    (h : x ∈ rstripBlank l) : x ∈ l := by
  unfold rstripBlank at h
  rw [List.mem_reverse] at h
  exact List.mem_reverse.mp (mem_of_mem_dropWhile h)

/-- The serializer output splits as its blank-trimmed core plus trailing
blank lines. -/
theorem rstripBlank_split (l : List (List Char)) :
    ∃ blanks, l = rstripBlank l ++ blanks ∧ ∀ x ∈ blanks, x = [] := by
  refine ⟨(l.reverse.takeWhile (fun x => x.isEmpty)).reverse, ?_, ?_⟩
  · conv_lhs => rw [← List.reverse_reverse l,
      ← List.takeWhile_append_dropWhile (fun x : List Char => x.isEmpty) l.reverse]
    rw [List.reverse_append]
    rfl
  · intro x hx
    rw [List.mem_reverse] at hx
    have := List.mem_takeWhile_imp hx
    simpa using this

/-! ### stepLine branch lemmas -/

theorem stepLine_skip (dt : List (List Char)) (acc : MergeState × Option (List Char))
    (raw : List Char)
    (h : ((strip (lineOf raw)).isEmpty || startsComment (strip (lineOf raw))) = true) :
    stepLine dt acc raw = acc := by
  simp only [stepLine]
  rw [if_pos h]

theorem stepLine_nil (dt : List (List Char)) (acc : MergeState × Option (List Char)) :
    stepLine dt acc [] = acc :=
  stepLine_skip dt acc [] (by rfl)

theorem stepLine_header_mitm (dt : List (List Char))
    (acc : MergeState × Option (List Char)) (raw g : List Char)
    (hc : ((strip (lineOf raw)).isEmpty || startsComment (strip (lineOf raw))) = false)
    (hh : sectionHeaderName (lineOf raw) = some g)
    (hm : upperL (strip g) = "MITM".toList) :
    stepLine dt acc raw = (acc.1, some (strip g)) := by
  simp only [stepLine]
  rw [if_neg (by simp [hc]), hh]
  simp only []
  rw [if_pos hm]

theorem stepLine_header_old (dt : List (List Char))
    (acc : MergeState × Option (List Char)) (raw g : List Char)
    (v : List (List Char))
    (hc : ((strip (lineOf raw)).isEmpty || startsComment (strip (lineOf raw))) = false)
    (hh : sectionHeaderName (lineOf raw) = some g)
    (hm : upperL (strip g) ≠ "MITM".toList)
    (hl : lookupSec acc.1.sectionLines (strip g) = some v) :
    stepLine dt acc raw = (acc.1, some (strip g)) := by
  simp only [stepLine]
  rw [if_neg (by simp [hc]), hh]
  simp only []
  rw [if_neg hm, hl]

theorem stepLine_header_new (dt : List (List Char))
    (acc : MergeState × Option (List Char)) (raw g : List Char)
    (hc : ((strip (lineOf raw)).isEmpty || startsComment (strip (lineOf raw))) = false)
    (hh : sectionHeaderName (lineOf raw) = some g)
    (hm : upperL (strip g) ≠ "MITM".toList)
    (hl : lookupSec acc.1.sectionLines (strip g) = none) :
    stepLine dt acc raw
      = ({ acc.1 with sectionOrder := acc.1.sectionOrder ++ [strip g],
                      sectionLines := acc.1.sectionLines ++ [(strip g, [])] },
         some (strip g)) := by
  simp only [stepLine]
  rw [if_neg (by simp [hc]), hh]
  simp only []
  rw [if_neg hm, hl]

theorem stepLine_nocur (dt : List (List Char))
    (acc : MergeState × Option (List Char)) (raw : List Char)
    (hc : ((strip (lineOf raw)).isEmpty || startsComment (strip (lineOf raw))) = false)
    (hh : sectionHeaderName (lineOf raw) = none)
    (h2 : acc.2 = none) :
    stepLine dt acc raw = acc := by
  simp only [stepLine]
  rw [if_neg (by simp [hc]), hh, h2]

theorem stepLine_mitm_nohost (dt : List (List Char))
    (acc : MergeState × Option (List Char)) (raw sec : List Char)
    (hc : ((strip (lineOf raw)).isEmpty || startsComment (strip (lineOf raw))) = false)
    (hh : sectionHeaderName (lineOf raw) = none)
    (h2 : acc.2 = some sec)
    (hm : upperL sec = "MITM".toList)
    (hr : mitmHostnameRest (lineOf raw) = none) :
    stepLine dt acc raw = (acc.1, some sec) := by
  simp only [stepLine]
  rw [if_neg (by simp [hc]), hh, h2]
  simp only []
  rw [if_pos hm, hr]

theorem stepLine_mitm_host (dt : List (List Char))
    (acc : MergeState × Option (List Char)) (raw sec g : List Char)
    (hc : ((strip (lineOf raw)).isEmpty || startsComment (strip (lineOf raw))) = false)
    (hh : sectionHeaderName (lineOf raw) = none)
    (h2 : acc.2 = some sec)
    (hm : upperL sec = "MITM".toList)
    (hr : mitmHostnameRest (lineOf raw) = some g) :
    stepLine dt acc raw = (addHosts acc.1 (hostCandidates g), some sec) := by
  simp only [stepLine]
  rw [if_neg (by simp [hc]), hh, h2]
  simp only []
  rw [if_pos hm, hr]

theorem stepLine_dropped (dt : List (List Char))
    (acc : MergeState × Option (List Char)) (raw sec : List Char)
    (hc : ((strip (lineOf raw)).isEmpty || startsComment (strip (lineOf raw))) = false)
    (hh : sectionHeaderName (lineOf raw) = none)
    (h2 : acc.2 = some sec)
    (hm : upperL sec ≠ "MITM".toList)
    (hd : dropHit dt (lineOf raw) = true) :
    stepLine dt acc raw = (acc.1, some sec) := by
  simp only [stepLine]
  rw [if_neg (by simp [hc]), hh, h2]
  simp only []
  rw [if_neg hm, if_pos hd]

theorem stepLine_dup (dt : List (List Char))
    (acc : MergeState × Option (List Char)) (raw sec : List Char)
    (hc : ((strip (lineOf raw)).isEmpty || startsComment (strip (lineOf raw))) = false)
    (hh : sectionHeaderName (lineOf raw) = none)
    (h2 : acc.2 = some sec)
    (hm : upperL sec ≠ "MITM".toList)
    (hd : dropHit dt (lineOf raw) = false)
    (hs : lineOf raw ∈ acc.1.nonMitmSeen) :
    stepLine dt acc raw = (acc.1, some sec) := by
  simp only [stepLine]
  rw [if_neg (by simp [hc]), hh, h2]
  simp only []
  rw [if_neg hm, if_neg (by simp [hd]), if_pos hs]

theorem stepLine_keep (dt : List (List Char))
    (acc : MergeState × Option (List Char)) (raw sec : List Char)
    (hc : ((strip (lineOf raw)).isEmpty || startsComment (strip (lineOf raw))) = false)
    (hh : sectionHeaderName (lineOf raw) = none)
    (h2 : acc.2 = some sec)
    (hm : upperL sec ≠ "MITM".toList)
    (hd : dropHit dt (lineOf raw) = false)
    (hs : lineOf raw ∉ acc.1.nonMitmSeen) :
    stepLine dt acc raw
      = ({ acc.1 with nonMitmSeen := acc.1.nonMitmSeen ++ [lineOf raw],
                      sectionLines := appendSec acc.1.sectionLines sec (lineOf raw) },
         some sec) := by
  simp only [stepLine]
  rw [if_neg (by simp [hc]), hh, h2]
  simp only []
  rw [if_neg hm, if_neg (by simp [hd]), if_neg hs]

end ProxyScript

namespace ProxyScript

/-! ### Membership closure for the matchers -/

theorem sectionHeaderName_spec {l g : List Char}
    (h : sectionHeaderName l = some g) :
    g ≠ [] ∧ (∀ c ∈ g, c ≠ ']') ∧ (∀ c ∈ g, c ∈ l) := by
  unfold sectionHeaderName at h
  cases hd : l.dropWhile isSpace with
  | nil => rw [hd] at h; cases h
  | cons c rest =>
    rw [hd] at h
    simp only [] at h
    by_cases hc : c = '['
    · rw [if_pos hc] at h
      cases he : rest.dropWhile (fun x => x != ']') with
      | nil => rw [he] at h; cases h
      | cons d tail =>
        rw [he] at h
        simp only [] at h
        by_cases hdc : d = ']'
        · rw [if_pos hdc] at h
          by_cases hcond : (!(rest.takeWhile (fun x => x != ']')).isEmpty
              && tail.all isSpace) = true
          · rw [if_pos hcond] at h
            cases h
            rw [Bool.and_eq_true] at hcond
            refine ⟨?_, ?_, ?_⟩
            · intro hnil
              rw [hnil] at hcond
              simp at hcond
            · intro x hx
              have := List.mem_takeWhile_imp hx
              simpa using this
            · intro x hx
              have hx' : x ∈ rest := mem_of_mem_takeWhile hx
              have : x ∈ l.dropWhile isSpace := by rw [hd]; simp [hx']
              exact mem_of_mem_dropWhile this
          · rw [if_neg hcond] at h; cases h
        · rw [if_neg hdc] at h; cases h
    · rw [if_neg hc] at h; cases h

theorem matchCI_mem {p i r : List Char} (h : matchCI p i = some r) :
    ∀ c ∈ r, c ∈ i := by
  induction p generalizing i with
  | nil =>
    unfold matchCI at h
    cases h
    exact fun c hc => hc
  | cons p0 ps ih =>
    cases i with
    | nil => cases h
    | cons c0 cs =>
      unfold matchCI at h
      by_cases hc0 : (c0.toLower == p0) = true
      · rw [if_pos hc0] at h
        exact fun c hc => by simp [ih h c hc]
      · rw [if_neg hc0] at h; cases h

theorem mitmHostnameRest_mem {l g : List Char} (h : mitmHostnameRest l = some g) :
    ∀ c ∈ g, c ∈ l := by
  unfold mitmHostnameRest at h
  cases hm : matchCI ("hostname".toList) (l.dropWhile isSpace) with
  | none => rw [hm] at h; cases h
  | some r =>
    rw [hm] at h
    simp only [] at h
    cases hdw : r.dropWhile isSpace with
    | nil => rw [hdw] at h; cases h
    | cons d s =>
      rw [hdw] at h
      simp only [] at h
      by_cases hd : d = '='
      · rw [if_pos hd] at h
        by_cases hs : s.isEmpty
        · rw [if_pos hs] at h; cases h
        · rw [if_neg hs] at h
          cases h
          intro c hc
          have h1 : c ∈ s := mem_of_mem_strip hc
          have h2 : c ∈ r.dropWhile isSpace := by rw [hdw]; simp [h1]
          have h3 : c ∈ r := mem_of_mem_dropWhile h2
          have h4 : c ∈ l.dropWhile isSpace := matchCI_mem hm c h3
          exact mem_of_mem_dropWhile h4
      · rw [if_neg hd] at h; cases h

theorem removeAppend_mem {l : List Char} {c : Char} (h : c ∈ removeAppend l) :
    c ∈ l := by
  induction l using removeAppend.induct with
  | case1 rest ih =>
    rw [removeAppend] at h
    simp [ih h]
  | case2 c0 rest hne ih =>
    rw [removeAppend.eq_2 _ _ (by exact hne)] at h
    rcases List.mem_cons.mp h with rfl | h'
    · simp
    · simp [ih h']
  | case3 => simp [removeAppend] at h

theorem splitComma_mem (l : List Char) :
    ∀ p ∈ splitComma l, ∀ c ∈ p, c ∈ l := by
  induction l using splitComma.induct with
  | case1 =>
    intro p hp c hc
    rw [splitComma, List.mem_singleton] at hp
    subst hp
    simp at hc
  | case2 rest ih =>
    intro p hp c hc
    rw [splitComma] at hp
    rcases List.mem_cons.mp hp with rfl | hp'
    · simp at hc
    · simp [ih p hp' c hc]
  | case3 c0 rest hne hm ih =>
    intro p hp c hc
    rw [splitComma.eq_3 _ _ (by exact hne), hm, List.mem_singleton] at hp
    subst hp
    rw [List.mem_singleton] at hc
    subst hc
    simp
  | case4 c0 rest hne q qs hm ih =>
    intro p hp c hc
    rw [splitComma.eq_3 _ _ (by exact hne), hm] at hp
    rcases List.mem_cons.mp hp with rfl | hp'
    · rcases List.mem_cons.mp hc with rfl | hc'
      · simp
      · have hq : q ∈ splitComma rest := by rw [hm]; simp
        simp [ih q hq c hc']
    · have hps : p ∈ splitComma rest := by rw [hm]; simp [hp']
      simp [ih p hps c hc]

theorem hostCandidates_mem {g x : List Char} (hx : x ∈ hostCandidates g) :
    ∀ c ∈ x, c ∈ g := by
  unfold hostCandidates at hx
  rw [List.mem_map] at hx
  obtain ⟨p, hp, rfl⟩ := hx
  intro c hc
  have h1 : c ∈ p := mem_of_mem_strip hc
  have h2 := splitComma_mem _ p hp c h1
  have h3 : c ∈ removeAppend g := mem_of_mem_strip h2
  exact removeAppend_mem h3

end ProxyScript

namespace ProxyScript

/-! ### The merge-state invariant -/

/-- Properties every stored non-MITM line has: it survived the blank and
comment filters, is not a section header, came from a single physical line
(so it is linebreak-free), and carries no leading BOM. -/
def LineOK (x : List Char) : Prop :=
  (strip x).isEmpty = false ∧ startsComment (strip x) = false ∧
  sectionHeaderName x = none ∧ (∀ c ∈ x, isLineBreak c = false) ∧
  dropBom x = x

/-- Properties every stored section name has: it is already stripped,
contains no closing bracket or linebreak, and is not the special section. -/
def SecOK (s : List Char) : Prop :=
  strip s = s ∧ (∀ c ∈ s, c ≠ ']') ∧ (∀ c ∈ s, isLineBreak c = false) ∧
  upperL s ≠ "MITM".toList

/-- The inductive invariant of the shared accumulators: `section_order`
lists exactly the dict keys in order without duplicates, every stored line
is in `non_mitm_seen`, stored lines and section names are well-formed,
stored lines are globally distinct, and `mitm_hosts` is duplicate-free and
covered by `mitm_seen`. -/
structure StateInv (st : MergeState) : Prop where
  orderEq : st.sectionOrder = st.sectionLines.map Prod.fst
  orderNodup : st.sectionOrder.Nodup
  seenClosed : ∀ p ∈ st.sectionLines, ∀ x ∈ p.2, x ∈ st.nonMitmSeen
  linesOK : ∀ p ∈ st.sectionLines, ∀ x ∈ p.2, LineOK x
  secsOK : ∀ p ∈ st.sectionLines, SecOK p.1
  flatNodup : ((st.sectionLines.map Prod.snd).flatten).Nodup
  hostsNodup : st.mitmHosts.Nodup
  hostsSeen : ∀ h ∈ st.mitmHosts, h ∈ st.mitmSeen
  hostsFree : ∀ h ∈ st.mitmHosts, ∀ c ∈ h, isLineBreak c = false

theorem initState_inv : StateInv initState := by
  constructor <;> simp [initState]

theorem nodup_append_singleton {α : Type} {l : List α} {a : α}
    (h : l.Nodup) (ha : a ∉ l) : (l ++ [a]).Nodup := by
  rw [List.nodup_append]
  exact ⟨h, by simp, by intro x hx hx'; rw [List.mem_singleton] at hx'; subst hx'; exact ha hx⟩

theorem mem_flatten_snd_iff {m : List (List Char × List (List Char))}
    {x : List Char} :
    x ∈ ((m.map Prod.snd).flatten) ↔ ∃ p ∈ m, x ∈ p.2 := by
  rw [List.mem_flatten]
  constructor
  · rintro ⟨s, hs, hx⟩
    rw [List.mem_map] at hs
    obtain ⟨p, hp, rfl⟩ := hs
    exact ⟨p, hp, hx⟩
  · rintro ⟨p, hp, hx⟩
    exact ⟨p.2, List.mem_map_of_mem Prod.snd hp, hx⟩

theorem addHost_inv {st : MergeState} (inv : StateInv st) (h : List Char)
    (hfree : ∀ c ∈ h, isLineBreak c = false) : StateInv (addHost st h) := by
  unfold addHost
  by_cases hs : h ∈ st.mitmSeen
  · rw [if_pos hs]; exact inv
  · rw [if_neg hs]
    refine ⟨inv.orderEq, inv.orderNodup, inv.seenClosed, inv.linesOK, inv.secsOK,
      inv.flatNodup, ?_, ?_, ?_⟩
    · exact nodup_append_singleton inv.hostsNodup
        (fun hc => hs (inv.hostsSeen h hc))
    · intro x hx
      rcases List.mem_append.mp hx with hx' | hx'
      · simp [inv.hostsSeen x hx']
      · rw [List.mem_singleton] at hx'
        subst hx'
        simp
    · intro x hx
      rcases List.mem_append.mp hx with hx' | hx'
      · exact inv.hostsFree x hx'
      · rw [List.mem_singleton] at hx'
        subst hx'
        exact hfree

theorem addHosts_inv {st : MergeState} (inv : StateInv st)
    (hs : List (List Char))
    (hfree : ∀ x ∈ hs, ∀ c ∈ x, isLineBreak c = false) :
    StateInv (addHosts st hs) := by
  unfold addHosts
  induction hs generalizing st with
  | nil => exact inv
  | cons x t ih =>
    rw [List.foldl_cons]
    by_cases hx : x.isEmpty
    · rw [if_pos hx]
      exact ih inv (fun y hy => hfree y (by simp [hy]))
    · rw [if_neg hx]
      exact ih (addHost_inv inv x (hfree x (by simp)))
        (fun y hy => hfree y (by simp [hy]))

/-- A single parser iteration preserves the invariant, provided the raw
piece is linebreak-free (as every `splitlines` piece is). -/
theorem stepLine_inv (dt : List (List Char)) (acc : MergeState × Option (List Char))
    (raw : List Char) (inv : StateInv acc.1)
    (hraw : ∀ c ∈ raw, isLineBreak c = false) :
    StateInv (stepLine dt acc raw).1 := by
  by_cases hc : ((strip (lineOf raw)).isEmpty || startsComment (strip (lineOf raw))) = true
  · rw [stepLine_skip dt acc raw hc]; exact inv
  · rw [Bool.not_eq_true] at hc
    have hlfree : ∀ c ∈ lineOf raw, isLineBreak c = false :=
      fun c hcm => hraw c (mem_of_mem_lineOf hcm)
    cases hh : sectionHeaderName (lineOf raw) with
    | some g =>
      by_cases hm : upperL (strip g) = "MITM".toList
      · rw [stepLine_header_mitm dt acc raw g hc hh hm]; exact inv
      · cases hl : lookupSec acc.1.sectionLines (strip g) with
        | some v => rw [stepLine_header_old dt acc raw g v hc hh hm hl]; exact inv
        | none =>
          rw [stepLine_header_new dt acc raw g hc hh hm hl]
          obtain ⟨hgne, hgbr, hgmem⟩ := sectionHeaderName_spec hh
          have hknotin : strip g ∉ acc.1.sectionLines.map Prod.fst :=
            (lookupSec_eq_none_iff _ _).mp hl
          refine ⟨?_, ?_, ?_, ?_, ?_, ?_, inv.hostsNodup, inv.hostsSeen, inv.hostsFree⟩
          · simp [inv.orderEq]
          · simp only []
            exact nodup_append_singleton inv.orderNodup
              (by rw [inv.orderEq]; exact hknotin)
          · intro p hp x hx
            simp only [] at hp ⊢
            rcases List.mem_append.mp hp with hp' | hp'
            · exact inv.seenClosed p hp' x hx
            · rw [List.mem_singleton] at hp'
              subst hp'
              simp at hx
          · intro p hp x hx
            simp only [] at hp
            rcases List.mem_append.mp hp with hp' | hp'
            · exact inv.linesOK p hp' x hx
            · rw [List.mem_singleton] at hp'
              subst hp'
              simp at hx
          · intro p hp
            simp only [] at hp
            rcases List.mem_append.mp hp with hp' | hp'
            · exact inv.secsOK p hp'
            · rw [List.mem_singleton] at hp'
              subst hp'
              refine ⟨strip_idem g, ?_, ?_, hm⟩
              · exact fun c hcm => hgbr c (mem_of_mem_strip hcm)
              · exact fun c hcm => hlfree c (hgmem c (mem_of_mem_strip hcm))
          · simp only [List.map_append, List.flatten_append]
            simpa using inv.flatNodup
    | none =>
      cases h2 : acc.2 with
      | none => rw [stepLine_nocur dt acc raw hc hh h2]; exact inv
      | some sec =>
        by_cases hm : upperL sec = "MITM".toList
        · cases hr : mitmHostnameRest (lineOf raw) with
          | none => rw [stepLine_mitm_nohost dt acc raw sec hc hh h2 hm hr]; exact inv
          | some g =>
            rw [stepLine_mitm_host dt acc raw sec g hc hh h2 hm hr]
            exact addHosts_inv inv (hostCandidates g)
              (fun x hx c hcm =>
                hlfree c (mitmHostnameRest_mem hr c (hostCandidates_mem hx c hcm)))
        · by_cases hd : dropHit dt (lineOf raw) = true
          · rw [stepLine_dropped dt acc raw sec hc hh h2 hm hd]; exact inv
          · rw [Bool.not_eq_true] at hd
            by_cases hseen : lineOf raw ∈ acc.1.nonMitmSeen
            · rw [stepLine_dup dt acc raw sec hc hh h2 hm hd hseen]; exact inv
            · rw [stepLine_keep dt acc raw sec hc hh h2 hm hd hseen]
              have hnotflat : lineOf raw ∉ ((acc.1.sectionLines.map Prod.snd).flatten) := by
                intro hmem
                obtain ⟨p, hp, hx⟩ := mem_flatten_snd_iff.mp hmem
                exact hseen (inv.seenClosed p hp _ hx)
              obtain ⟨hcE, hcC⟩ := Bool.or_eq_false_iff.mp hc
              refine ⟨?_, inv.orderNodup, ?_, ?_, ?_, ?_,
                inv.hostsNodup, inv.hostsSeen, inv.hostsFree⟩
              · simp only [appendSec_map_fst]
                exact inv.orderEq
              · intro p hp x hx
                simp only [] at hp ⊢
                rcases mem_appendSec hp with hp' | ⟨v, hv, rfl⟩
                · exact List.mem_append.mpr (Or.inl (inv.seenClosed p hp' x hx))
                · simp only [] at hx
                  rcases List.mem_append.mp hx with hx' | hx'
                  · exact List.mem_append.mpr (Or.inl (inv.seenClosed _ hv x hx'))
                  · rw [List.mem_singleton] at hx'
                    subst hx'
                    simp
              · intro p hp x hx
                simp only [] at hp
                rcases mem_appendSec hp with hp' | ⟨v, hv, rfl⟩
                · exact inv.linesOK p hp' x hx
                · simp only [] at hx
                  rcases List.mem_append.mp hx with hx' | hx'
                  · exact inv.linesOK _ hv x hx'
                  · rw [List.mem_singleton] at hx'
                    subst hx'
                    exact ⟨hcE, hcC, hh, hlfree, dropBom_lineOf raw⟩
              · intro p hp
                simp only [] at hp
                rcases mem_appendSec hp with hp' | ⟨v, hv, rfl⟩
                · exact inv.secsOK p hp'
                · exact inv.secsOK (sec, v) hv
              · simp only []
                exact flatten_snd_appendSec _ _ _ hnotflat inv.flatNodup

/-- Folding a whole source through the parser preserves the invariant. -/
theorem foldl_stepLine_inv (dt : List (List Char)) (pieces : List (List Char)) :
    ∀ acc : MergeState × Option (List Char), StateInv acc.1 →
    (∀ piece ∈ pieces, ∀ c ∈ piece, isLineBreak c = false) →
    StateInv ((pieces.foldl (stepLine dt) acc).1) := by
  induction pieces with
  | nil => exact fun acc inv _ => inv
  | cons p t ih =>
    intro acc inv hfree
    rw [List.foldl_cons]
    exact ih _ (stepLine_inv dt acc p inv (hfree p (by simp)))
      (fun x hx => hfree x (by simp [hx]))

/-- `parse_and_aggregate` preserves the merge-state invariant. -/
theorem parseAndAggregate_inv (content : List Char) (dt : List (List Char))
    (st : MergeState) (inv : StateInv st) :
    StateInv (parseAndAggregate content dt st) := by
  unfold parseAndAggregate
  exact foldl_stepLine_inv dt (pySplitlines content) (st, none) inv
    (pySplitlines_linebreak_free content)

end ProxyScript

namespace ProxyScript

/-! ### Re-parsing the rendered lines -/

theorem stepLine_comment_hash (dt : List (List Char))
    (acc : MergeState × Option (List Char)) (r : List Char)
    (hfree : ∀ c ∈ ('#' :: r), isLineBreak c = false) :
    stepLine dt acc ('#' :: r) = acc := by
  have hline : lineOf ('#' :: r) = '#' :: r :=
    lineOf_eq_self _ hfree (dropBom_cons _ _ (by decide))
  apply stepLine_skip
  rw [hline, strip_cons _ _ (by decide)]
  simp [startsComment]

theorem sectionHeaderName_cons_ne (c : Char) (r : List Char)
    (hs : isSpace c = false) (hb : c ≠ '[') :
    sectionHeaderName (c :: r) = none := by
  unfold sectionHeaderName
  rw [List.dropWhile_cons_of_neg (by simp [hs])]
  simp only []
  rw [if_neg hb]

theorem sectionHeaderName_headerLine (sec : List Char)
    (hbr : ∀ c ∈ sec, c ≠ ']') (hne : sec ≠ []) :
    sectionHeaderName (headerLine sec) = some sec := by
  unfold sectionHeaderName headerLine
  rw [List.dropWhile_cons_of_neg (by simp [isSpace])]
  simp only []
  have hsplit := takeWhile_append_stop (fun x => x != ']') sec [] ']'
    (fun c hc => by simpa using hbr c hc) (by simp)
  rw [hsplit.1, hsplit.2]
  simp [isEmpty_false_of_ne sec hne]

theorem headerLine_free (sec : List Char)
    (hfree : ∀ c ∈ sec, isLineBreak c = false) :
    ∀ c ∈ headerLine sec, isLineBreak c = false := by
  intro c hc
  unfold headerLine at hc
  rcases List.mem_cons.mp hc with rfl | hc'
  · decide
  · rcases List.mem_append.mp hc' with h | h
    · exact hfree c h
    · rw [List.mem_singleton] at h
      subst h
      decide

theorem lineOf_headerLine (sec : List Char)
    (hfree : ∀ c ∈ sec, isLineBreak c = false) :
    lineOf (headerLine sec) = headerLine sec :=
  lineOf_eq_self _ (headerLine_free sec hfree) (dropBom_cons _ _ (by decide))

theorem headerLine_not_skipped (sec : List Char) :
    ((strip (headerLine sec)).isEmpty || startsComment (strip (headerLine sec))) = false := by
  unfold headerLine
  rw [strip_cons _ _ (by decide)]
  rfl

/-- Processing a rendered section header opens that (new) section. -/
theorem stepLine_headerLine_new (acc : MergeState × Option (List Char))
    (sec : List Char) (hsec : SecOK sec) (hne : sec ≠ [])
    (hkey : lookupSec acc.1.sectionLines sec = none) :
    stepLine [] acc (headerLine sec)
      = ({ acc.1 with sectionOrder := acc.1.sectionOrder ++ [sec],
                      sectionLines := acc.1.sectionLines ++ [(sec, [])] },
         some sec) := by
  obtain ⟨hstrip, hbr, hfree, hmitm⟩ := hsec
  have hline := lineOf_headerLine sec hfree
  have h := stepLine_header_new [] acc (headerLine sec) sec
    (by rw [hline]; exact headerLine_not_skipped sec)
    (by rw [hline]; exact sectionHeaderName_headerLine sec hbr hne)
    (by rw [hstrip]; exact hmitm)
    (by rw [hstrip]; exact hkey)
  rwa [hstrip] at h

/-- Processing one stored line in a non-MITM section with no drop tokens
appends it when unseen. -/
theorem stepLine_stored (acc : MergeState × Option (List Char))
    (sec x : List Char) (h2 : acc.2 = some sec)
    (hm : upperL sec ≠ "MITM".toList) (hok : LineOK x)
    (hseen : x ∉ acc.1.nonMitmSeen) :
    stepLine [] acc x
      = ({ acc.1 with nonMitmSeen := acc.1.nonMitmSeen ++ [x],
                      sectionLines := appendSec acc.1.sectionLines sec x },
         some sec) := by
  obtain ⟨hE, hC, hH, hF, hB⟩ := hok
  have hline : lineOf x = x := lineOf_eq_self x hF hB
  have h := stepLine_keep [] acc x sec
    (by rw [hline, Bool.or_eq_false_iff]; exact ⟨hE, hC⟩)
    (by rw [hline]; exact hH) h2 hm (by rfl) (by rw [hline]; exact hseen)
  rwa [hline] at h

theorem foldl_lines (ls : List (List Char)) :
    ∀ (st : MergeState) (sec : List Char),
    upperL sec ≠ "MITM".toList →
    (∀ x ∈ ls, LineOK x) → ls.Nodup → (∀ x ∈ ls, x ∉ st.nonMitmSeen) →
    ls.foldl (stepLine []) (st, some sec)
      = ({ st with nonMitmSeen := st.nonMitmSeen ++ ls,
                   sectionLines := ls.foldl (fun m x => appendSec m sec x) st.sectionLines },
         some sec) := by
  induction ls with
  | nil => intro st sec _ _ _ _; simp
  | cons x t ih =>
    intro st sec hm hok hnd hnew
    rw [List.foldl_cons,
      stepLine_stored (st, some sec) sec x rfl hm (hok x (by simp))
        (hnew x (by simp))]
    rw [ih _ sec hm (fun y hy => hok y (by simp [hy])) (List.Nodup.of_cons hnd)
      (fun y hy => ?_)]
    · simp [List.append_assoc]
    · simp only [List.mem_append, List.mem_singleton]
      rintro (hmem | rfl)
      · exact hnew y (by simp [hy]) hmem
      · exact (List.nodup_cons.mp hnd).1 hy

theorem foldl_appendSec_key (sec : List Char) (ls : List (List Char)) :
    ∀ (m₁ m₂ : List (List Char × List (List Char))) (v : List (List Char)),
    lookupSec m₁ sec = none →
    ls.foldl (fun m x => appendSec m sec x) (m₁ ++ (sec, v) :: m₂)
      = m₁ ++ (sec, v ++ ls) :: m₂ := by
  induction ls with
  | nil => intro m₁ m₂ v _; simp
  | cons x t ih =>
    intro m₁ m₂ v h
    rw [List.foldl_cons, appendSec_append_key m₁ m₂ sec x v h, ih m₁ m₂ _ h]
    simp

/-- Processing one whole rendered section block from any current section. -/
theorem foldl_block (sec : List Char) (ls : List (List Char)) (st0 : MergeState)
    (cur0 : Option (List Char))
    (hsec : SecOK sec) (hne : sec ≠ [])
    (hls : ∀ x ∈ ls, LineOK x) (hnd : ls.Nodup)
    (hnew : ∀ x ∈ ls, x ∉ st0.nonMitmSeen)
    (hkey : lookupSec st0.sectionLines sec = none) :
    (headerLine sec :: (ls ++ [[]])).foldl (stepLine []) (st0, cur0)
      = ({ st0 with sectionOrder := st0.sectionOrder ++ [sec],
                    sectionLines := st0.sectionLines ++ [(sec, ls)],
                    nonMitmSeen := st0.nonMitmSeen ++ ls }, some sec) := by
  rw [List.foldl_cons, stepLine_headerLine_new (st0, cur0) sec hsec hne hkey]
  rw [List.foldl_append]
  rw [foldl_lines ls _ sec hsec.2.2.2 hls hnd (by exact hnew)]
  have hfold : ls.foldl (fun m x => appendSec m sec x)
      (st0.sectionLines ++ [(sec, [])]) = st0.sectionLines ++ [(sec, ls)] := by
    have := foldl_appendSec_key sec ls st0.sectionLines [] [] hkey
    simpa using this
  rw [hfold]
  simp [List.foldl_cons, stepLine_nil]

def blocksOf (ps : List (List Char × List (List Char))) : List (List Char) :=
  (ps.map (fun p => headerLine p.1 :: (p.2 ++ [[]]))).flatten

/-- Processing all rendered section blocks rebuilds exactly those sections. -/
theorem foldl_blocks (ps : List (List Char × List (List Char))) :
    ∀ (st0 : MergeState) (cur0 : Option (List Char)),
    (∀ p ∈ ps, SecOK p.1) → (∀ p ∈ ps, p.1 ≠ []) →
    (∀ p ∈ ps, ∀ x ∈ p.2, LineOK x) →
    ((ps.map Prod.snd).flatten).Nodup →
    (∀ p ∈ ps, ∀ x ∈ p.2, x ∉ st0.nonMitmSeen) →
    (∀ p ∈ ps, lookupSec st0.sectionLines p.1 = none) →
    (ps.map Prod.fst).Nodup →
    ∃ cur1, (blocksOf ps).foldl (stepLine []) (st0, cur0)
      = ({ st0 with sectionOrder := st0.sectionOrder ++ ps.map Prod.fst,
                    sectionLines := st0.sectionLines ++ ps,
                    nonMitmSeen := st0.nonMitmSeen ++ (ps.map Prod.snd).flatten },
         cur1) := by
  induction ps with
  | nil =>
    intro st0 cur0 _ _ _ _ _ _ _
    exact ⟨cur0, by simp [blocksOf]⟩
  | cons p rest ih =>
    intro st0 cur0 h1 h2 h3 h4 h5 h6 h7
    have hflat : (p.2 ++ ((rest.map Prod.snd).flatten)).Nodup := by
      simpa using h4
    rw [List.nodup_append] at hflat
    have hblock := foldl_block p.1 p.2 st0 cur0 (h1 p (by simp)) (h2 p (by simp))
      (h3 p (by simp)) hflat.1 (fun x hx => h5 p (by simp) x hx) (h6 p (by simp))
    have hstep : blocksOf (p :: rest)
        = (headerLine p.1 :: (p.2 ++ [[]])) ++ blocksOf rest := by
      simp [blocksOf]
    rw [hstep, List.foldl_append, hblock]
    have h7' : p.1 ∉ (rest.map Prod.fst) ∧ (rest.map Prod.fst).Nodup := by
      rw [List.map_cons, List.nodup_cons] at h7
      exact h7
    obtain ⟨cur1, hrest⟩ := ih
      ({ st0 with sectionOrder := st0.sectionOrder ++ [p.1],
                  sectionLines := st0.sectionLines ++ [(p.1, p.2)],
                  nonMitmSeen := st0.nonMitmSeen ++ p.2 }) (some p.1)
      (fun q hq => h1 q (by simp [hq])) (fun q hq => h2 q (by simp [hq]))
      (fun q hq => h3 q (by simp [hq])) hflat.2.1
      (fun q hq x hx => by
        simp only [List.mem_append]
        rintro (hmem | hmem)
        · exact h5 q (by simp [hq]) x hx hmem
        · exact hflat.2.2 hmem (mem_flatten_snd_iff.mpr ⟨q, hq, hx⟩))
      (fun q hq => by
        simp only []
        rw [lookupSec_append_none _ _ _ (h6 q (by simp [hq])), lookupSec_cons,
          if_neg ?_]
        · rfl
        · intro he
          exact h7'.1 (he ▸ List.mem_map_of_mem Prod.fst hq))
      h7'.2
    refine ⟨cur1, ?_⟩
    rw [hrest]
    simp [List.append_assoc]
end ProxyScript

namespace ProxyScript

/-! ### Serializer output shape -/

theorem nameLines_some (n : List Char) (hn : n ≠ []) :
    nameLines (some n) = ["#!name=".toList ++ n] := by
  unfold nameLines
  simp only []
  rw [if_neg (by simp [isEmpty_false_of_ne n hn])]

theorem descLines_some (d : List Char) (hd : d ≠ []) :
    descLines (some d) = ["#!desc=".toList ++ d] := by
  unfold descLines
  simp only []
  rw [if_neg (by simp [isEmpty_false_of_ne d hd])]

theorem headerPart_some (n d : List Char) (hn : n ≠ []) (hd : d ≠ []) :
    headerPart (some n) (some d)
      = ["#!name=".toList ++ n, "#!desc=".toList ++ d, []] := by
  unfold headerPart
  rw [nameLines_some n hn, descLines_some d hd]
  rw [if_neg (by simp)]
  simp

theorem sectionsOut_congr (names : List (List Char))
    (m m' : List (List Char × List (List Char)))
    (h : ∀ sec ∈ names, lookupSec m sec = lookupSec m' sec) :
    sectionsOut names m = sectionsOut names m' := by
  induction names with
  | nil => rfl
  | cons sec t ih =>
    unfold sectionsOut
    simp only [List.map_cons, List.flatten_cons]
    rw [show sectionBlock m sec = sectionBlock m' sec by
      unfold sectionBlock; rw [h sec (by simp)]]
    have := ih (fun x hx => h x (by simp [hx]))
    unfold sectionsOut at this
    rw [this]

/-- Under the invariant, the serializer's section loop emits exactly one
block per section with at least one line, in order. -/
theorem sectionsOut_eq_blocksOf (m : List (List Char × List (List Char))) :
    (m.map Prod.fst).Nodup →
    sectionsOut (m.map Prod.fst) m = blocksOf (m.filter (fun p => !p.2.isEmpty)) := by
  induction m with
  | nil => intro _; rfl
  | cons p rest ih =>
    intro hnd
    rw [List.map_cons, List.nodup_cons] at hnd
    have hcongr : sectionsOut (rest.map Prod.fst) (p :: rest)
        = sectionsOut (rest.map Prod.fst) rest := by
      apply sectionsOut_congr
      intro sec hsec
      obtain ⟨a, b⟩ := p
      rw [lookupSec_cons, if_neg ?_]
      intro he
      exact hnd.1 (he ▸ hsec)
    unfold sectionsOut
    simp only [List.map_cons, List.flatten_cons]
    have hblock : sectionBlock (p :: rest) p.1
        = if p.2.isEmpty then [] else headerLine p.1 :: (p.2 ++ [[]]) := by
      unfold sectionBlock
      obtain ⟨a, b⟩ := p
      rw [lookupSec_cons, if_pos rfl]
      by_cases hb : b.isEmpty
      · simp [hb]
      · simp [hb]
    rw [hblock]
    have ihr := ih hnd.2
    unfold sectionsOut at ihr hcongr
    rw [hcongr, ihr]
    by_cases hb : p.2.isEmpty
    · rw [if_pos hb, List.filter_cons_of_neg (by simp [hb])]
      simp
    · rw [if_neg hb, List.filter_cons_of_pos (by simp [hb])]
      simp [blocksOf]

theorem mem_blocksOf {ps : List (List Char × List (List Char))}
    {l : List Char} (h : l ∈ blocksOf ps) :
    (∃ p ∈ ps, l = headerLine p.1) ∨ (∃ p ∈ ps, l ∈ p.2) ∨ l = [] := by
  induction ps with
  | nil => simp [blocksOf] at h
  | cons p rest ih =>
    rw [show blocksOf (p :: rest) = (headerLine p.1 :: (p.2 ++ [[]])) ++ blocksOf rest
      by simp [blocksOf]] at h
    rcases List.mem_append.mp h with h' | h'
    · rcases List.mem_cons.mp h' with rfl | h''
      · exact Or.inl ⟨p, by simp, rfl⟩
      · rcases List.mem_append.mp h'' with h3 | h3
        · exact Or.inr (Or.inl ⟨p, by simp, h3⟩)
        · rw [List.mem_singleton] at h3
          exact Or.inr (Or.inr h3)
    · rcases ih h' with ⟨q, hq, he⟩ | ⟨q, hq, he⟩ | he
      · exact Or.inl ⟨q, by simp [hq], he⟩
      · exact Or.inr (Or.inl ⟨q, by simp [hq], he⟩)
      · exact Or.inr (Or.inr he)

end ProxyScript

namespace ProxyScript

theorem addHosts_sectionLines (st : MergeState) (hs : List (List Char)) :
    (addHosts st hs).sectionLines = st.sectionLines ∧
    (addHosts st hs).sectionOrder = st.sectionOrder ∧
    (addHosts st hs).nonMitmSeen = st.nonMitmSeen := by
  unfold addHosts
  induction hs generalizing st with
  | nil => exact ⟨rfl, rfl, rfl⟩
  | cons x t ih =>
    rw [List.foldl_cons]
    by_cases hx : x.isEmpty
    · rw [if_pos hx]; exact ih st
    · rw [if_neg hx]
      have hA : (addHost st x).sectionLines = st.sectionLines ∧
          (addHost st x).sectionOrder = st.sectionOrder ∧
          (addHost st x).nonMitmSeen = st.nonMitmSeen := by
        unfold addHost
        by_cases hs' : x ∈ st.mitmSeen
        · rw [if_pos hs']; exact ⟨rfl, rfl, rfl⟩
        · rw [if_neg hs']; exact ⟨rfl, rfl, rfl⟩
      have hT := ih (addHost st x)
      exact ⟨hT.1.trans hA.1, hT.2.1.trans hA.2.1, hT.2.2.trans hA.2.2⟩

/-- Any line processed while the current section is the special one leaves
the non-MITM accumulators untouched and the section unchanged, so long as
the line is not a section header. -/
theorem stepLine_in_mitm (dt : List (List Char))
    (acc : MergeState × Option (List Char)) (raw sec : List Char)
    (h2 : acc.2 = some sec) (hm : upperL sec = "MITM".toList)
    (hh : sectionHeaderName (lineOf raw) = none) :
    (stepLine dt acc raw).1.sectionLines = acc.1.sectionLines ∧
    (stepLine dt acc raw).1.sectionOrder = acc.1.sectionOrder ∧
    (stepLine dt acc raw).1.nonMitmSeen = acc.1.nonMitmSeen ∧
    (stepLine dt acc raw).2 = some sec := by
  by_cases hc : ((strip (lineOf raw)).isEmpty || startsComment (strip (lineOf raw))) = true
  · rw [stepLine_skip dt acc raw hc]
    exact ⟨rfl, rfl, rfl, h2⟩
  · rw [Bool.not_eq_true] at hc
    cases hr : mitmHostnameRest (lineOf raw) with
    | none =>
      rw [stepLine_mitm_nohost dt acc raw sec hc hh h2 hm hr]
      exact ⟨rfl, rfl, rfl, rfl⟩
    | some g =>
      rw [stepLine_mitm_host dt acc raw sec g hc hh h2 hm hr]
      have := addHosts_sectionLines acc.1 (hostCandidates g)
      exact ⟨this.1, this.2.1, this.2.2, rfl⟩

theorem joinCommaSpace_free (hs : List (List Char))
    (hfree : ∀ x ∈ hs, ∀ c ∈ x, isLineBreak c = false) :
    ∀ c ∈ joinCommaSpace hs, isLineBreak c = false := by
  induction hs using joinCommaSpace.induct with
  | case1 => intro c hc; simp [joinCommaSpace] at hc
  | case2 h => exact fun c hc => hfree h (by simp) c (by simpa [joinCommaSpace] using hc)
  | case3 h t hne ih =>
    intro c hc
    rw [joinCommaSpace.eq_3 _ _ (by exact hne)] at hc
    rcases List.mem_append.mp hc with h' | h'
    · exact hfree h (by simp) c h'
    · rcases List.mem_cons.mp h' with rfl | h''
      · decide
      · rcases List.mem_cons.mp h'' with rfl | h3
        · decide
        · exact ih (fun x hx => hfree x (by simp [hx])) c h3

/-- Processing the rendered MITM block touches only the MITM accumulators. -/
theorem foldl_mitmOut (hosts : List (List Char))
    (hfree : ∀ x ∈ hosts, ∀ c ∈ x, isLineBreak c = false) :
    ∀ acc : MergeState × Option (List Char),
    ((mitmOut hosts).foldl (stepLine []) acc).1.sectionLines = acc.1.sectionLines := by
  intro acc
  unfold mitmOut
  by_cases hho : hosts.isEmpty
  · rw [if_pos hho]
    rfl
  · rw [if_neg hho]
    rw [List.foldl_cons]
    have hstep1 : stepLine [] acc ("[MITM]".toList) = (acc.1, some ("MITM".toList)) :=
      stepLine_header_mitm [] acc _ ("MITM".toList) (by decide) (by decide) (by decide)
    rw [hstep1, List.foldl_cons]
    set hline := "hostname = %APPEND% ".toList ++ joinCommaSpace hosts with hhl
    have hlf : ∀ c ∈ hline, isLineBreak c = false := by
      intro c hc
      rw [hhl] at hc
      rcases List.mem_append.mp hc with h' | h'
      · have : ∀ c ∈ "hostname = %APPEND% ".toList, isLineBreak c = false := by decide
        exact this c h'
      · exact joinCommaSpace_free hosts hfree c h'
    have hlineOf : lineOf hline = hline := by
      apply lineOf_eq_self _ hlf
      rw [hhl]
      exact dropBom_cons _ _ (by decide)
    have hmitm := stepLine_in_mitm [] (acc.1, some ("MITM".toList)) hline
      ("MITM".toList) rfl (by decide)
      (by rw [hlineOf, hhl]; exact sectionHeaderName_cons_ne _ _ (by decide) (by decide))
    rw [List.foldl_cons, stepLine_nil]
    obtain ⟨hsl, _, _, hcur⟩ := hmitm
    exact hsl

theorem foldl_blanks (dt : List (List Char)) (bl : List (List Char))
    (h : ∀ x ∈ bl, x = []) :
    ∀ acc : MergeState × Option (List Char), bl.foldl (stepLine dt) acc = acc := by
  induction bl with
  | nil => intro acc; rfl
  | cons x t ih =>
    intro acc
    rw [List.foldl_cons, show x = [] from h x (by simp), stepLine_nil]
    exact ih (fun y hy => h y (by simp [hy])) acc

end ProxyScript

namespace ProxyScript

/-- Re-parsing the rendered document from the empty state rebuilds exactly
the sections that had at least one line, for any invariant-satisfying state
whose section names are nonempty. -/
theorem reparse_render (st : MergeState) (inv : StateInv st) (n d : List Char)
    (hn : n ≠ []) (hd : d ≠ [])
    (hnf : ∀ c ∈ n, isLineBreak c = false) (hdf : ∀ c ∈ d, isLineBreak c = false)
    (hsecne : ∀ p ∈ st.sectionLines, p.1 ≠ []) :
    (parseAndAggregate (renderText st (some n) (some d)) [] initState).sectionLines
      = st.sectionLines.filter (fun p => !p.2.isEmpty) := by
  have hkeysnd : (st.sectionLines.map Prod.fst).Nodup := inv.orderEq ▸ inv.orderNodup
  have hsub : (st.sectionLines.filter (fun p => !p.2.isEmpty)).Sublist st.sectionLines :=
    List.filter_sublist _
  have hmemf : ∀ p ∈ st.sectionLines.filter (fun p => !p.2.isEmpty),
      p ∈ st.sectionLines := fun p hp => (List.mem_filter.mp hp).1
  have hsections : sectionsOut st.sectionOrder st.sectionLines
      = blocksOf (st.sectionLines.filter (fun p => !p.2.isEmpty)) := by
    rw [inv.orderEq]
    exact sectionsOut_eq_blocksOf _ hkeysnd
  have hout0 : headerPart (some n) (some d)
        ++ sectionsOut st.sectionOrder st.sectionLines ++ mitmOut st.mitmHosts
      = ("#!name=".toList ++ n) :: ("#!desc=".toList ++ d) :: [] ::
        (blocksOf (st.sectionLines.filter (fun p => !p.2.isEmpty))
          ++ mitmOut st.mitmHosts) := by
    rw [headerPart_some n d hn hd, hsections]
    simp
  have hfreeAll : ∀ l ∈ headerPart (some n) (some d)
        ++ sectionsOut st.sectionOrder st.sectionLines ++ mitmOut st.mitmHosts,
      ∀ c ∈ l, isLineBreak c = false := by
    rw [hout0]
    intro l hl c hc
    rcases List.mem_cons.mp hl with rfl | hl1
    · rcases List.mem_append.mp hc with h' | h'
      · revert h'
        have : ∀ c ∈ "#!name=".toList, isLineBreak c = false := by decide
        exact this c
      · exact hnf c h'
    · rcases List.mem_cons.mp hl1 with rfl | hl2
      · rcases List.mem_append.mp hc with h' | h'
        · revert h'
          have : ∀ c ∈ "#!desc=".toList, isLineBreak c = false := by decide
          exact this c
        · exact hdf c h'
      · rcases List.mem_cons.mp hl2 with rfl | hl3
        · simp at hc
        · rcases List.mem_append.mp hl3 with hl4 | hl4
          · rcases mem_blocksOf hl4 with ⟨p, hp, rfl⟩ | ⟨p, hp, hx⟩ | rfl
            · exact headerLine_free p.1
                ((inv.secsOK p (hmemf p hp)).2.2.1) c hc
            · exact (inv.linesOK p (hmemf p hp) l hx).2.2.2.1 c hc
            · simp at hc
          · revert hl4
            unfold mitmOut
            by_cases hho : st.mitmHosts.isEmpty
            · rw [if_pos hho]
              intro h'
              simp at h'
            · rw [if_neg hho]
              intro h'
              rcases List.mem_cons.mp h' with rfl | h1
              · revert hc
                have : ∀ c ∈ "[MITM]".toList, isLineBreak c = false := by decide
                exact this c
              · rcases List.mem_cons.mp h1 with rfl | h2
                · rcases List.mem_append.mp hc with h3 | h3
                  · revert h3
                    have : ∀ c ∈ "hostname = %APPEND% ".toList,
                        isLineBreak c = false := by decide
                    exact this c
                  · exact joinCommaSpace_free st.mitmHosts inv.hostsFree c h3
                · rw [List.mem_singleton] at h2
                  subst h2
                  simp at hc
  have hh1ne : "#!name=".toList ++ n ≠ [] := by simp
  have houtS : writeMergedOut st.sectionOrder st.sectionLines st.mitmHosts
        (some n) (some d)
      = ("#!name=".toList ++ n) :: rstripBlank (("#!desc=".toList ++ d) :: [] ::
          (blocksOf (st.sectionLines.filter (fun p => !p.2.isEmpty))
            ++ mitmOut st.mitmHosts)) := by
    unfold writeMergedOut
    rw [hout0]
    exact rstripBlank_cons_ne _ _ hh1ne
  have houtne : writeMergedOut st.sectionOrder st.sectionLines st.mitmHosts
      (some n) (some d) ≠ [] := by
    rw [houtS]
    simp
  have houtfree : ∀ l ∈ writeMergedOut st.sectionOrder st.sectionLines st.mitmHosts
      (some n) (some d), ∀ c ∈ l, isLineBreak c = false := by
    intro l hl
    exact hfreeAll l (mem_rstripBlank hl)
  unfold parseAndAggregate renderText
  rw [pySplitlines_joinNl _ houtne houtfree]
  obtain ⟨blanks, hsplit, hblanks⟩ := rstripBlank_split (headerPart (some n) (some d)
    ++ sectionsOut st.sectionOrder st.sectionLines ++ mitmOut st.mitmHosts)
  have hfold : (writeMergedOut st.sectionOrder st.sectionLines st.mitmHosts
        (some n) (some d)).foldl (stepLine []) (initState, none)
      = (headerPart (some n) (some d)
          ++ sectionsOut st.sectionOrder st.sectionLines
          ++ mitmOut st.mitmHosts).foldl (stepLine []) (initState, none) := by
    conv_rhs => rw [hsplit]
    rw [List.foldl_append, foldl_blanks [] blanks hblanks]
    rfl
  rw [hfold, hout0]
  rw [List.foldl_cons, List.foldl_cons, List.foldl_cons]
  rw [show ("#!name=".toList ++ n) = '#' :: ("!name=".toList ++ n) from rfl,
    stepLine_comment_hash [] (initState, none) _ ?hf1]
  case hf1 =>
    intro c hc
    rcases List.mem_cons.mp hc with rfl | hc'
    · decide
    · rcases List.mem_append.mp hc' with h' | h'
      · revert h'
        have : ∀ c ∈ "!name=".toList, isLineBreak c = false := by decide
        exact this c
      · exact hnf c h'
  rw [show ("#!desc=".toList ++ d) = '#' :: ("!desc=".toList ++ d) from rfl,
    stepLine_comment_hash [] (initState, none) _ ?hf2]
  case hf2 =>
    intro c hc
    rcases List.mem_cons.mp hc with rfl | hc'
    · decide
    · rcases List.mem_append.mp hc' with h' | h'
      · revert h'
        have : ∀ c ∈ "!desc=".toList, isLineBreak c = false := by decide
        exact this c
      · exact hdf c h'
  rw [stepLine_nil]
  rw [List.foldl_append]
  obtain ⟨cur1, hblocks⟩ := foldl_blocks
    (st.sectionLines.filter (fun p => !p.2.isEmpty)) initState none
    (fun p hp => inv.secsOK p (hmemf p hp))
    (fun p hp => hsecne p (hmemf p hp))
    (fun p hp => inv.linesOK p (hmemf p hp))
    (List.Nodup.sublist (flatten_sublist_of_sublist (hsub.map Prod.snd))
      inv.flatNodup)
    (fun p _ x _ => by simp [initState])
    (fun p _ => rfl)
    (List.Nodup.sublist (hsub.map Prod.fst) hkeysnd)
  rw [hblocks]
  rw [foldl_mitmOut st.mitmHosts inv.hostsFree _]
  simp [initState]

end ProxyScript

namespace ProxyScript

/-! ### Whole-run helpers -/

/-- The merge state built by folding a list of (content, drop-token)
sources in manifest order from the empty state, as `aggregate` does. -/
def foldSources (sources : List (List Char × List (List Char))) : MergeState :=
  sources.foldl (fun st p => parseAndAggregate p.1 p.2 st) initState

theorem foldSources_inv (sources : List (List Char × List (List Char))) :
    StateInv (foldSources sources) := by
  unfold foldSources
  have : ∀ (st : MergeState), StateInv st →
      StateInv (sources.foldl (fun st p => parseAndAggregate p.1 p.2 st) st) := by
    induction sources with
    | nil => exact fun st h => h
    | cons s t ih =>
      intro st h
      rw [List.foldl_cons]
      exact ih _ (parseAndAggregate_inv s.1 s.2 st h)
  exact this initState initState_inv

/-- The three invariant clauses stated by the specification. -/
def MergeInvariant (st : MergeState) : Prop :=
  (∀ p ∈ st.sectionLines, p.2.Nodup) ∧ st.mitmHosts.Nodup ∧
  st.sectionOrder.Nodup ∧
  (∀ k, k ∈ st.sectionOrder ↔ k ∈ st.sectionLines.map Prod.fst)

theorem mergeInvariant_of_stateInv {st : MergeState} (inv : StateInv st) :
    MergeInvariant st :=
  ⟨fun p hp => nodup_of_mem_flatten_nodup inv.flatNodup
      (List.mem_map_of_mem Prod.snd hp),
   inv.hostsNodup, inv.orderNodup, fun k => by rw [inv.orderEq]⟩

theorem truthy_some {x : Option (List Char)} (h : truthy x = true) :
    ∃ v, x = some v ∧ v ≠ [] := by
  cases x with
  | none => simp [truthy] at h
  | some l =>
    refine ⟨l, rfl, ?_⟩
    unfold truthy at h
    intro he
    subst he
    simp at h

theorem truthy_pyOr (a b : Option (List Char)) (hb : truthy b = true) :
    truthy (pyOr a b) = true := by
  unfold pyOr
  by_cases ha : truthy a = true
  · rw [if_pos ha]; exact ha
  · rw [if_neg ha]; exact hb

theorem resolveMeta_truthy (cn cd yn yd : Option (List Char)) :
    truthy (resolveMeta cn cd yn yd).1 = true ∧
    truthy (resolveMeta cn cd yn yd).2 = true := by
  unfold resolveMeta
  by_cases hc : (!truthy cn || !truthy cd) = true
  · rw [if_pos hc]
    exact ⟨truthy_pyOr _ _ (by decide), truthy_pyOr _ _ (by decide)⟩
  · rw [if_neg hc]
    rw [Bool.or_eq_true, not_or] at hc
    constructor
    · have := hc.1
      simpa using this
    · have := hc.2
      simpa using this
end ProxyScript

namespace ProxyScript

/-- What one failed rule records in the `failures` list. -/
def failureRecord (ir : Nat × FetchedRule) : Option (Nat × List Char × List Char) :=
  match ir.2.text with
  | none => some (ir.1, ir.2.url, ir.2.err.getD ("unknown error".toList))
  | some _ => none

/-- The successfully fetched payloads of a rule list, in manifest order. -/
def fetchedPayloads (rules : List FetchedRule) : List (List Char × List (List Char)) :=
  rules.filterMap (fun r => r.text.map (fun t => (t, r.drop)))

theorem runAggregate_general (rules : List FetchedRule) :
    ∀ (i : Nat) (st : MergeState)
      (fails : List (Nat × List Char × List Char)) (count : Nat),
    (rules.enumFrom i).foldl aggStep (st, fails, count)
      = ((fetchedPayloads rules).foldl (fun s p => parseAndAggregate p.1 p.2 s) st,
         fails ++ (rules.enumFrom i).filterMap failureRecord,
         count + (rules.filter (fun r => r.text.isSome)).length) := by
  induction rules with
  | nil => intro i st fails count; simp [List.enumFrom, fetchedPayloads]
  | cons r rest ih =>
    intro i st fails count
    rw [List.enumFrom_cons, List.foldl_cons]
    cases ht : r.text with
    | none =>
      have hstep : aggStep (st, fails, count) (i, r)
          = (st, fails ++ [(i, r.url, r.err.getD ("unknown error".toList))], count) := by
        unfold aggStep
        rw [ht]
      rw [hstep, ih (i + 1) st _ count]
      simp [fetchedPayloads, failureRecord, List.filterMap_cons, List.filter_cons, ht]
    | some t =>
      have hstep : aggStep (st, fails, count) (i, r)
          = (parseAndAggregate t r.drop st, fails, count + 1) := by
        unfold aggStep
        rw [ht]
      rw [hstep, ih (i + 1) _ fails (count + 1)]
      simp [fetchedPayloads, failureRecord, List.filterMap_cons,
        List.filter_cons, ht]
      omega

end ProxyScript

namespace ProxyScript

theorem fetchGo_fallback (f : Nat → Option (List Char)) (retries : Nat) :
    ∀ (fuel attempt : Nat),
    (fetchGo f retries fuel attempt none).1 = none →
    (fetchGo f retries fuel attempt none).2 = some (failMsg retries) := by
  intro fuel
  induction fuel with
  | zero => intro attempt _; rfl
  | succ k ih =>
    intro attempt h'
    unfold fetchGo at h' ⊢
    by_cases hle : attempt ≤ max 0 retries
    · rw [if_pos hle] at h' ⊢
      cases hf : f attempt with
      | some t =>
        rw [hf] at h'
        simp at h'
      | none =>
        rw [hf] at h'
        by_cases hbr : attempt + 1 > retries
        · rw [if_pos hbr]
          rfl
        · rw [if_neg hbr] at h' ⊢
          exact ih (attempt + 1) h'
    · rw [if_neg hle]
      rfl

end ProxyScript

namespace ProxyScript

/-! ### Claim theorems -/

/-- C1 (counterexample): the text `x` already stored under section `A` is
dropped when it reappears under section `B`; section `B` keeps no copy,
contradicting the claim that duplicate text under a different section name
is appended independently to that section's sequence. -/
theorem crossSection_duplicate_cex :
    (parseAndAggregate ("[A]\nx\n[B]\nx".toList) [] initState).sectionLines
      = [("A".toList, ["x".toList]), ("B".toList, [])]
    ∧ lookupSec (parseAndAggregate ("[A]\nx\n[B]\nx".toList) [] initState).sectionLines
        ("B".toList) = some [] := by
  constructor
  · decide
  · decide

/-- C1 (amended): the seen-set is global across sections, so a non-header
line whose normalised text is already in `non_mitm_seen` is dropped no
matter which (non-special) section is current, leaving the state and the
current section unchanged. -/
theorem crossSection_duplicate_dropped (dt : List (List Char)) (st : MergeState)
    (sec raw : List Char)
    (hm : upperL sec ≠ "MITM".toList)
    (hh : sectionHeaderName (lineOf raw) = none)
    (hs : lineOf raw ∈ st.nonMitmSeen) :
    stepLine dt (st, some sec) raw = (st, some sec) := by
  by_cases hc : ((strip (lineOf raw)).isEmpty || startsComment (strip (lineOf raw))) = true
  · exact stepLine_skip dt _ raw hc
  · rw [Bool.not_eq_true] at hc
    by_cases hdrop : dropHit dt (lineOf raw) = true
    · exact stepLine_dropped dt _ raw sec hc hh rfl hm hdrop
    · rw [Bool.not_eq_true] at hdrop
      exact stepLine_dup dt _ raw sec hc hh rfl hm hdrop hs

/-- C1 (witness): the amended duplicate-drop theorem at a concrete state. -/
theorem crossSection_duplicate_dropped_witness :
    stepLine [] (⟨["B".toList], [("B".toList, [])], ["x".toList], [], []⟩,
        some ("B".toList)) ("x".toList)
      = (⟨["B".toList], [("B".toList, [])], ["x".toList], [], []⟩,
         some ("B".toList)) :=
  crossSection_duplicate_dropped [] _ ("B".toList) ("x".toList)
    (by decide) (by decide) (by decide)

/-- C2: starting from any state satisfying the merge-state invariant,
`parse_and_aggregate` yields a state that again satisfies it; in
particular no line occurs twice within one section's sequence, no hostname
occurs twice in `hosts`, and `sectionOrder` lists exactly the keys of
`sectionLines`, each once. -/
theorem parseAndAggregate_mergeInvariant (content : List Char)
    (dt : List (List Char)) (st : MergeState) (h : StateInv st) :
    StateInv (parseAndAggregate content dt st)
    ∧ MergeInvariant (parseAndAggregate content dt st) :=
  have inv' := parseAndAggregate_inv content dt st h
  ⟨inv', mergeInvariant_of_stateInv inv'⟩

/-- C2 (witness): the invariant theorem applied to a concrete fold from the
initial state. -/
theorem parseAndAggregate_mergeInvariant_witness :
    StateInv (parseAndAggregate ("[A]\nx\n[MITM]\nhostname = a.com".toList) [] initState)
    ∧ MergeInvariant
        (parseAndAggregate ("[A]\nx\n[MITM]\nhostname = a.com".toList) [] initState) :=
  parseAndAggregate_mergeInvariant ("[A]\nx\n[MITM]\nhostname = a.com".toList) []
    initState initState_inv

/-- C3 (counterexample): a source whose section header is `[ ]` produces a
section with empty name holding the line `x`, and a header-only section
`[B]` an empty sequence; rendering and re-parsing loses both, so the
round-trip does not reproduce `sectionLines`. -/
theorem roundTrip_cex :
    (parseAndAggregate "[ ]\nx\n[B]".toList [] initState).sectionLines
      = [([], ["x".toList]), ("B".toList, [])]
    ∧ (parseAndAggregate
        (renderText (parseAndAggregate "[ ]\nx\n[B]".toList [] initState)
          (some "N".toList) (some "D".toList)) [] initState).sectionLines
      = [] := by
  constructor
  · decide
  · decide

/-- C3 (amended): for every state built by the aggregation pass whose
section names are all nonempty, rendering with truthy name and description
and re-parsing from the empty state with no drop tokens reproduces
`sectionLines` restricted to the sections holding at least one line; the
injected header and blank lines contribute nothing, and sections with
empty sequences are dropped by the renderer. -/
theorem roundTrip_sectionLines (sources : List (List Char × List (List Char)))
    (n d : List Char) (hn : n ≠ []) (hd : d ≠ [])
    (hnf : ∀ c ∈ n, isLineBreak c = false)
    (hdf : ∀ c ∈ d, isLineBreak c = false)
    (hsecne : ∀ p ∈ (foldSources sources).sectionLines, p.1 ≠ []) :
    (parseAndAggregate (renderText (foldSources sources) (some n) (some d))
        [] initState).sectionLines
      = (foldSources sources).sectionLines.filter (fun p => !p.2.isEmpty) :=
  reparse_render (foldSources sources) (foldSources_inv sources) n d hn hd hnf hdf hsecne

/-- C3 (witness): the round-trip theorem at a concrete two-section source. -/
theorem roundTrip_sectionLines_witness :
    (parseAndAggregate
        (renderText (foldSources [("[A]\nx\n[B]\ny".toList, [])])
          (some "N".toList) (some "D".toList)) [] initState).sectionLines
      = (foldSources [("[A]\nx\n[B]\ny".toList, [])]).sectionLines.filter
          (fun p => !p.2.isEmpty) :=
  roundTrip_sectionLines [("[A]\nx\n[B]\ny".toList, [])] ("N".toList) ("D".toList)
    (by decide) (by decide) (by decide) (by decide) (by decide)

/-- C4: while the current section compares case-insensitively equal to
MITM, the step function is independent of the configured drop tokens:
no line is ever discarded (or treated differently) because of them. -/
theorem mitm_ignores_dropTokens (dt1 dt2 : List (List Char)) (st : MergeState)
    (sec raw : List Char) (hm : upperL sec = "MITM".toList) :
    stepLine dt1 (st, some sec) raw = stepLine dt2 (st, some sec) raw := by
  by_cases hc : ((strip (lineOf raw)).isEmpty || startsComment (strip (lineOf raw))) = true
  · rw [stepLine_skip dt1 _ _ hc, stepLine_skip dt2 _ _ hc]
  · rw [Bool.not_eq_true] at hc
    cases hh : sectionHeaderName (lineOf raw) with
    | some g =>
      by_cases hm' : upperL (strip g) = "MITM".toList
      · rw [stepLine_header_mitm dt1 _ _ g hc hh hm',
          stepLine_header_mitm dt2 _ _ g hc hh hm']
      · cases hl : lookupSec st.sectionLines (strip g) with
        | some v =>
          rw [stepLine_header_old dt1 _ _ g v hc hh hm' hl,
            stepLine_header_old dt2 _ _ g v hc hh hm' hl]
        | none =>
          rw [stepLine_header_new dt1 _ _ g hc hh hm' hl,
            stepLine_header_new dt2 _ _ g hc hh hm' hl]
    | none =>
      cases hr : mitmHostnameRest (lineOf raw) with
      | none =>
        rw [stepLine_mitm_nohost dt1 _ _ sec hc hh rfl hm hr,
          stepLine_mitm_nohost dt2 _ _ sec hc hh rfl hm hr]
      | some g =>
        rw [stepLine_mitm_host dt1 _ _ sec g hc hh rfl hm hr,
          stepLine_mitm_host dt2 _ _ sec g hc hh rfl hm hr]

/-- C4 (witness): drop tokens that would match the hostname line have no
effect inside the special section. -/
theorem mitm_ignores_dropTokens_witness :
    stepLine ["host".toList] (initState, some ("MITM".toList))
        ("hostname = a.com".toList)
      = stepLine [] (initState, some ("MITM".toList)) ("hostname = a.com".toList) :=
  mitm_ignores_dropTokens ["host".toList] [] initState ("MITM".toList)
    ("hostname = a.com".toList) (by decide)

/-- C5: folding the two `%APPEND%` sources merges the hostname lists in
first-seen order, and rendering any state with non-empty hosts emits
`[MITM]` followed by the single line `hostname = %APPEND% ` plus the hosts
joined by comma-space, as the last lines of the output. -/
theorem mitm_append_merge_scenario :
    (parseAndAggregate ("[MITM]\nhostname = %APPEND% b.com, c.com".toList) []
        (parseAndAggregate ("[MITM]\nhostname = %APPEND% a.com, b.com".toList) []
          initState)).mitmHosts
      = ["a.com".toList, "b.com".toList, "c.com".toList]
    ∧ ∀ (order : List (List Char)) (m : List (List Char × List (List Char)))
        (hosts : List (List Char)) (n d : Option (List Char)), hosts ≠ [] →
      writeMergedOut order m hosts n d
        = headerPart n d ++ sectionsOut order m
          ++ ["[MITM]".toList, "hostname = %APPEND% ".toList ++ joinCommaSpace hosts] := by
  constructor
  · decide
  · intro order m hosts n d hne
    unfold writeMergedOut mitmOut
    rw [if_neg (by simp [isEmpty_false_of_ne hosts hne])]
    rw [show headerPart n d ++ sectionsOut order m
          ++ ["[MITM]".toList, "hostname = %APPEND% ".toList ++ joinCommaSpace hosts, []]
        = (((headerPart n d ++ sectionsOut order m ++ ["[MITM]".toList])
            ++ ["hostname = %APPEND% ".toList ++ joinCommaSpace hosts]) ++ [[]])
        by simp]
    rw [rstripBlank_append_nil, rstripBlank_append_ne _ _ (by simp)]
    simp

/-- C5 (witness): the rendering clause at a concrete host list. -/
theorem mitm_append_merge_scenario_witness :
    writeMergedOut [] [] ["x.com".toList] none none
      = headerPart none none ++ sectionsOut [] []
        ++ ["[MITM]".toList, "hostname = %APPEND% ".toList
            ++ joinCommaSpace ["x.com".toList]] :=
  mitm_append_merge_scenario.2 [] [] ["x.com".toList] none none (by decide)

/-- C6: a rule whose fetch failed leaves the merge state untouched and is
recorded as `(index, url, message)` while the loop continues: the final
state equals the fold of the successfully fetched payloads alone in
manifest order, the failure list collects exactly the failed rules with
their 1-based indices, and the fetched counter counts the successes. -/
theorem aggregate_skips_failed_sources (rules : List FetchedRule) :
    (runAggregate rules).1
      = (fetchedPayloads rules).foldl (fun s p => parseAndAggregate p.1 p.2 s) initState
    ∧ (runAggregate rules).2.1 = (rules.enumFrom 1).filterMap failureRecord
    ∧ (runAggregate rules).2.2 = (rules.filter (fun r => r.text.isSome)).length := by
  unfold runAggregate
  rw [runAggregate_general rules 1 initState [] 0]
  exact ⟨rfl, by simp, by simp⟩

/-- C7 (counterexample): a bare `[Empty]` header creates the section at
header time, so `sectionOrder` contains a name whose line sequence is
empty, contradicting the claim that sections are only created when their
first kept line arrives. -/
theorem empty_section_reachable_cex :
    (parseAndAggregate "[Empty]".toList [] initState).sectionOrder = ["Empty".toList]
    ∧ lookupSec (parseAndAggregate "[Empty]".toList [] initState).sectionLines
        ("Empty".toList) = some [] := by
  constructor
  · decide
  · decide

/-- C7 (amended): a section is created as soon as its header is seen, so a
zero-line section is reachable; the serializer's skip is therefore live
and keeps such sections out of the output: the state parsed from
`[Empty]` renders to the header lines alone, and in general a section
whose stored sequence is empty contributes no block. -/
theorem empty_section_skipped_render :
    (parseAndAggregate "[Empty]".toList [] initState).sectionLines
      = [("Empty".toList, [])]
    ∧ writeMergedOut (parseAndAggregate "[Empty]".toList [] initState).sectionOrder
        (parseAndAggregate "[Empty]".toList [] initState).sectionLines
        (parseAndAggregate "[Empty]".toList [] initState).mitmHosts
        (some "N".toList) (some "D".toList)
      = ["#!name=N".toList, "#!desc=D".toList]
    ∧ ∀ (m : List (List Char × List (List Char))) (sec : List Char),
        lookupSec m sec = some [] → sectionBlock m sec = [] := by
  refine ⟨by decide, by decide, ?_⟩
  intro m sec h
  unfold sectionBlock
  rw [h]
  rfl

/-- C7 (witness): the zero-line skip clause applied at a concrete dict. -/
theorem empty_section_skipped_render_witness :
    sectionBlock [("A".toList, [])] ("A".toList) = [] :=
  empty_section_skipped_render.2.2 [("A".toList, [])] ("A".toList) (by decide)

/-- C8 (counterexample): a kept line whose body begins with U+FEFF is
stored with the byte-order mark removed, so the stored string differs from
the physical line with only its terminator stripped. -/
theorem bom_stripped_cex :
    lookupSec (parseAndAggregate ("[A]\n﻿hello".toList) [] initState).sectionLines
        ("A".toList) = some ["hello".toList]
    ∧ "hello".toList ≠ '﻿' :: "hello".toList := by
  constructor
  · decide
  · decide

/-- C8 (amended): the string stored for a kept non-special line equals the
raw physical line with the trailing `\r`/`\n` run and any leading U+FEFF
characters removed, and nothing else altered — in particular leading and
trailing whitespace of the line body survive. -/
theorem stored_line_normalisation (dt : List (List Char)) (st : MergeState)
    (sec raw : List Char)
    (hc : ((strip (dropBom (normalizeLine raw))).isEmpty
        || startsComment (strip (dropBom (normalizeLine raw)))) = false)
    (hh : sectionHeaderName (dropBom (normalizeLine raw)) = none)
    (hm : upperL sec ≠ "MITM".toList)
    (hd : dropHit dt (dropBom (normalizeLine raw)) = false)
    (hs : dropBom (normalizeLine raw) ∉ st.nonMitmSeen) :
    stepLine dt (st, some sec) raw
      = ({ st with nonMitmSeen := st.nonMitmSeen ++ [dropBom (normalizeLine raw)],
                   sectionLines := appendSec st.sectionLines sec
                     (dropBom (normalizeLine raw)) }, some sec) :=
  stepLine_keep dt (st, some sec) raw sec hc hh rfl hm hd hs

/-- C8 (witness): a line with inner whitespace, a trailing `\r` and a
leading BOM is stored as the body with only terminator and BOM removed. -/
theorem stored_line_normalisation_witness :
    stepLine [] (⟨["A".toList], [("A".toList, [])], [], [], []⟩, some ("A".toList))
        ('﻿' :: ("  hi  ".toList ++ ['\r']))
      = ({ (⟨["A".toList], [("A".toList, [])], [], [], []⟩ : MergeState) with
             nonMitmSeen := [] ++ [dropBom (normalizeLine
               ('﻿' :: ("  hi  ".toList ++ ['\r'])))],
             sectionLines := appendSec [("A".toList, [])] ("A".toList)
               (dropBom (normalizeLine ('﻿' :: ("  hi  ".toList ++ ['\r'])))) },
         some ("A".toList)) :=
  stored_line_normalisation [] _ ("A".toList) _
    (by decide) (by decide) (by decide) (by decide) (by decide)

/-- C9: `last_error` is still `None` whenever the retry loop exhausts all
attempts, so the error returned with a failed fetch is always the fallback
`"Failed after N retries"` and never a per-attempt message. -/
theorem retry_error_always_fallback (f : Nat → Option (List Char)) (retries : Nat)
    (h : (fetchUrlWithRetries f retries).1 = none) :
    (fetchUrlWithRetries f retries).2 = some (failMsg retries) :=
  fetchGo_fallback f retries (retries + 2) 0 h

/-- C9 (witness): three always-failing attempts yield exactly the fallback
message. -/
theorem retry_error_always_fallback_witness :
    (fetchUrlWithRetries (fun _ => none) 2).1 = none
    ∧ (fetchUrlWithRetries (fun _ => none) 2).2 = some (failMsg 2)
    ∧ failMsg 2 = "Failed after 2 retries".toList :=
  ⟨by decide, retry_error_always_fallback (fun _ => none) 2 (by decide), by decide⟩

/-- C10: whatever the CLI and manifest provide, the resolved name and
description are truthy (defaulting to `Aggregated Module` and
`Auto-generated by aggregate.py`), so the rendered output always begins
with a `#!name=` line followed by a `#!desc=` line. -/
theorem render_always_has_headers (cn cd yn yd : Option (List Char))
    (order : List (List Char)) (m : List (List Char × List (List Char)))
    (hosts : List (List Char)) :
    ∃ nv dv rest, resolveMeta cn cd yn yd = (some nv, some dv)
    ∧ nv ≠ [] ∧ dv ≠ []
    ∧ aggRender cn cd yn yd order m hosts
      = ("#!name=".toList ++ nv) :: ("#!desc=".toList ++ dv) :: rest := by
  obtain ⟨ht1, ht2⟩ := resolveMeta_truthy cn cd yn yd
  obtain ⟨nv, hnv, hnvne⟩ := truthy_some ht1
  obtain ⟨dv, hdv, hdvne⟩ := truthy_some ht2
  refine ⟨nv, dv, rstripBlank ([] :: (sectionsOut order m ++ mitmOut hosts)),
    ?_, hnvne, hdvne, ?_⟩
  · rw [Prod.ext_iff]
    exact ⟨hnv, hdv⟩
  · unfold aggRender writeMergedOut
    rw [hnv, hdv, headerPart_some nv dv hnvne hdvne]
    rw [show ["#!name=".toList ++ nv, "#!desc=".toList ++ dv, []]
          ++ sectionsOut order m ++ mitmOut hosts
        = ("#!name=".toList ++ nv) :: ("#!desc=".toList ++ dv)
          :: ([] :: (sectionsOut order m ++ mitmOut hosts)) by simp]
    rw [rstripBlank_cons_ne _ _ (by simp), rstripBlank_cons_ne _ _ (by simp)]

end ProxyScript
